import Mathlib

/-!
# haktrails: the `main` goroutine, the input streamer and the worker pool

A shallow embedding of `haktrails.go`.

* `main` is embedded as a function from the things it reads (home directory,
  `os.Args`, the outcome of the flag parse, the file system, standard input) to the
  sequence of statements the main goroutine executes and the package-level
  variables it leaves behind.
* The anonymous goroutine that feeds the work channel is embedded as `streamer`.
* Goroutines, the unbuffered channel `work` and the `sync.WaitGroup` are given an
  interleaving semantics (`step`, `run`) that interprets those statement sequences.
* The ten pool handlers (`subdomains`, `submit`, ...) live in files that are not part
  of the sources at hand; their receive loop is modelled from the specification. A
  handler invocation is one step of its worker: it is taken to return.
-/

namespace Haktrails

/-! ## Data model -/

/-- Go field `Config.SecurityTrails`: an anonymous struct with the single field `Key`. -/
structure SecurityTrails where
  Key : String
deriving DecidableEq, Repr

/-- Go type `Config`. -/
structure Config where
  SecurityTrails : SecurityTrails
deriving DecidableEq, Repr

/-- A parsed YAML document as far as `Config` can see it: the scalar at
`securitytrails.key` when the document has one, and every other entry of the
document (path and value), none of which has a field in `Config`. -/
structure YamlDoc where
  securitytrailsKey : Option String
  others : List (String × String)
deriving DecidableEq, Repr

/-- Result of `decoder.Decode(&config)` on a document: fields are filled by their
`yaml` tags, a field without an entry keeps the zero value, entries without a field
are dropped. -/
def decodeConfig (d : YamlDoc) : Config :=
  ⟨⟨d.securitytrailsKey.getD ""⟩⟩

/-- Values given on the command line after the command name, as left by
`mainFlagSet.Parse(os.Args[2:])`; `none` stands for a flag that was not given. -/
structure FlagValues where
  t : Option Int
  b : Option Int
  c : Option String
  o : Option String
  type : Option String
  query : Option String
deriving DecidableEq, Repr

/-- A `bufio.Scanner` over a stream: the lines it will still yield, the read error
that ends the stream after them (`none` at end-of-stream), and the current token. -/
structure Scanner where
  tokens : List String
  err : Option String
  text : String
deriving DecidableEq, Repr

/-- Go `(*Scanner).Scan`: advance to the next line; `false` once the stream has ended,
be it at end-of-stream or at a read error. -/
def Scanner.Scan (s : Scanner) : Bool × Scanner :=
  match s.tokens with
  | [] => (false, s)
  | t :: ts => (true, { s with tokens := ts, text := t })

/-- Go `(*Scanner).Text`. -/
def Scanner.Text (s : Scanner) : String := s.text

/-- Go `(*Scanner).Err`: the error that ended the stream, if any. -/
def Scanner.Err (s : Scanner) : Option String :=
  match s.tokens with
  | [] => s.err
  | _ :: _ => none

/-- Everything `main` reads from outside the program. `flags` is the outcome of
`mainFlagSet.Parse(os.Args[2:])` under `flag.ExitOnError`: the values given, or the
status the flag package exits with. `files` is `os.Open` followed by the YAML
decoder: an open error, or a file that decodes to an error or to a document. -/
structure World where
  homeDir : Except String String
  Args : List String
  flags : Except Nat FlagValues
  files : String → Except String (Except String YamlDoc)
  environ : List (String × String)
  Stdin : Scanner

/-- Colours of `github.com/fatih/color` used by the program. -/
inductive Color
  | FgRed
  | FgYellow
  | FgGreen
deriving DecidableEq, Repr

/-- Lines written with `fmt.Println`. -/
inductive Msg
  | errHomeDir (err : String)
  | errOpenConfig (err : String)
  | errDecodeConfig (err : String)
  | helpText
  | bannerText
deriving DecidableEq, Repr

/-- The goroutine calls `go h(work, wg, ...)` of the command switch, with the extra
argument where the handler takes one. -/
inductive Call
  | submit (buffer : Int)
  | historicalwhois
  | historicaldns (lookupType : String)
  | tags
  | whois
  | company
  | details
  | subdomains
  | associatedDomains
  | associatedIPs
deriving DecidableEq, Repr

/-- Handler functions, without their arguments. -/
inductive Handler
  | submit
  | historicalwhois
  | historicaldns
  | tags
  | whois
  | company
  | details
  | subdomains
  | associatedDomains
  | associatedIPs
deriving DecidableEq, Repr

/-- The function a goroutine call runs. -/
def Call.handler : Call → Handler
  | .submit _ => .submit
  | .historicalwhois => .historicalwhois
  | .historicaldns _ => .historicaldns
  | .tags => .tags
  | .whois => .whois
  | .company => .company
  | .details => .details
  | .subdomains => .subdomains
  | .associatedDomains => .associatedDomains
  | .associatedIPs => .associatedIPs

/-- Statements of the main goroutine that are visible from outside it. -/
inductive Act
  | colorSet (c : Color)
  | colorUnset
  | println (m : Msg)
  | osExit (code : Nat)
  | osOpen (path : String)
  | makeChan
  | goStreamer
  | newWaitGroup
  | wgAdd (delta : Int)
  | go (c : Call)
  | wgWait
  | dsl (query : String)
  | ping
  | usage
  | fClose
  | ret
deriving DecidableEq, Repr

/-- Operations of the streamer goroutine on the channel `work`. -/
inductive ChanOp
  | send (item : String)
  | close
deriving DecidableEq, Repr

/-! ## The functions of `haktrails.go` -/

/-- Go `help()`. -/
def help : List Act :=
  [.colorSet .FgYellow, .println .helpText, .colorUnset]

/-- Go `banner()`. -/
def banner : List Act :=
  [.colorSet .FgGreen, .println .bannerText, .colorUnset]

/-- The loop `for s.Scan() { work <- s.Text() }` over the lines the scanner yields,
followed by `close(work)`. -/
def streamLoop : List String → List ChanOp
  | [] => [.close]
  | t :: ts => .send t :: streamLoop ts

/-- The goroutine started at the line `go func() {...}()` of `main`:
`s := bufio.NewScanner(os.Stdin); for s.Scan() { work <- s.Text() }; close(work)`. -/
def streamer (s : Scanner) : List ChanOp :=
  streamLoop s.tokens

/-- The loop body `wg.Add(1); go h(work, wg, ...)` executed `k` times. -/
def spawnLoop (c : Call) : Nat → List Act
  | 0 => []
  | k + 1 => .wgAdd 1 :: .go c :: spawnLoop c k

/-- One pool case of the switch:
`for i := 0; i < numWorkers; i++ { wg.Add(1); go h(work, wg, ...) }; wg.Wait()`.
The loop runs for `i = 0, ..., numWorkers - 1`, not at all when `numWorkers ≤ 0`. -/
def pool (numWorkers : Int) (c : Call) : List Act :=
  spawnLoop c numWorkers.toNat ++ [.wgWait]

/-- The statement `switch os.Args[1] {...}` of `main`, followed by `k`, the rest of
`main` after the switch. The default case leaves through `os.Exit(1)`. -/
def dispatch (cmd : String) (numWorkers buffer : Int) (lookupType query : String)
    (k : List Act) : List Act :=
  if cmd = "banner" then banner ++ k
  else if cmd = "submit" then pool numWorkers (.submit buffer) ++ k
  else if cmd = "dsl" then .dsl query :: k
  else if cmd = "historicalwhois" then pool numWorkers .historicalwhois ++ k
  else if cmd = "historicaldns" then pool numWorkers (.historicaldns lookupType) ++ k
  else if cmd = "tags" then pool numWorkers .tags ++ k
  else if cmd = "whois" then pool numWorkers .whois ++ k
  else if cmd = "company" then pool numWorkers .company ++ k
  else if cmd = "details" then pool numWorkers .details ++ k
  else if cmd = "ping" then .ping :: k
  else if cmd = "usage" then .usage :: k
  else if cmd = "subdomains" then pool numWorkers .subdomains ++ k
  else if cmd = "associateddomains" then pool numWorkers .associatedDomains ++ k
  else if cmd = "associatedips" then pool numWorkers .associatedIPs ++ k
  else help ++ [.osExit 1]

/-- What a run of `main` leaves behind: the statements the main goroutine executes,
in order, ending in `ret` (return from `main`) or `osExit`, and the package-level
variables `config`, `apiEndpoint` and `output`. -/
structure MainRun where
  trace : List Act
  config : Option Config
  apiEndpoint : String
  output : String
deriving DecidableEq, Repr

/-- Go `main()`. -/
def main (w : World) : MainRun :=
  match w.homeDir with
  | .error err => ⟨[.println (.errHomeDir err), .ret], none, "", ""⟩
  | .ok home =>
    let defaultConfigFile := home ++ "/.config/haktools/haktrails-config.yml"
    match w.Args with
    | _ :: cmd :: _ =>
      match w.flags with
      | .error code => ⟨[.osExit code], none, "", ""⟩
      | .ok fl =>
        let concurrencyPtr := fl.t.getD 2
        let buffer := fl.b.getD 100
        let configFile := fl.c.getD defaultConfigFile
        let outputPointer := fl.o.getD "list"
        let lookupType := fl.type.getD "a"
        let query := fl.query.getD ""
        let output := outputPointer
        match w.files configFile with
        | .error err =>
          ⟨[.colorSet .FgRed, .osOpen configFile, .println (.errOpenConfig err), .ret],
            none, "", output⟩
        | .ok f =>
          match f with
          | .error err =>
            ⟨[.colorSet .FgRed, .osOpen configFile, .println (.errDecodeConfig err),
              .fClose, .ret], none, "", output⟩
          | .ok doc =>
            let config := decodeConfig doc
            let apiEndpoint := "https://api.securitytrails.com/v1/"
            let numWorkers := concurrencyPtr
            ⟨[.colorSet .FgRed, .osOpen configFile, .colorUnset, .makeChan, .goStreamer,
                .newWaitGroup]
              ++ dispatch cmd numWorkers buffer lookupType query [.fClose, .ret],
              some config, apiEndpoint, output⟩
    | _ => ⟨help ++ [.osExit 1], none, "", ""⟩

/-- The value of `*concurrencyPtr` after the flag parse: the `-t` value, 2 by default. -/
def concurrency (fl : FlagValues) : Int := fl.t.getD 2

/-- The table of pool-driven commands: the handler of the same name as the command,
with the extra argument it is called with (`buffer` for `submit`, `lookupType` for
`historicaldns`). -/
def poolCall (cmd : String) (buffer : Int) (lookupType : String) : Option Call :=
  if cmd = "submit" then some (.submit buffer)
  else if cmd = "historicalwhois" then some .historicalwhois
  else if cmd = "historicaldns" then some (.historicaldns lookupType)
  else if cmd = "tags" then some .tags
  else if cmd = "whois" then some .whois
  else if cmd = "company" then some .company
  else if cmd = "details" then some .details
  else if cmd = "subdomains" then some .subdomains
  else if cmd = "associateddomains" then some .associatedDomains
  else if cmd = "associatedips" then some .associatedIPs
  else none

/-- The ten pool-driven command names. -/
def poolCommands : List String :=
  ["submit", "historicalwhois", "historicaldns", "tags", "whois", "company", "details",
   "subdomains", "associateddomains", "associatedips"]

/-- The handler function bound to a pool-driven command name. -/
def handlerOf (cmd : String) : Option Handler :=
  (poolCall cmd 0 "").map Call.handler

/-- The goroutine calls among a sequence of statements, in order. -/
def goCalls : List Act → List Call
  | [] => []
  | .go c :: rest => c :: goCalls rest
  | _ :: rest => goCalls rest

/-- The statement starts a goroutine of a pool handler. -/
def Act.isGo : Act → Bool
  | .go _ => true
  | _ => false

/-- The statement calls one of the single-shot functions `dsl`, `ping`, `usage`. -/
def Act.isDirect : Act → Bool
  | .dsl _ => true
  | .ping => true
  | .usage => true
  | _ => false

/-- The statement prints one of the three error lines of `main`. -/
def Act.isError : Act → Bool
  | .println (.errHomeDir _) => true
  | .println (.errOpenConfig _) => true
  | .println (.errDecodeConfig _) => true
  | _ => false

/-- The items a sequence of channel operations sends, in order. -/
def sends : List ChanOp → List String
  | [] => []
  | .send x :: rest => x :: sends rest
  | .close :: rest => sends rest

/-- The channel operations that follow the first `close`. -/
def afterClose : List ChanOp → List ChanOp
  | [] => []
  | .close :: rest => rest
  | .send _ :: rest => afterClose rest

/-! ## Goroutines, the channel and the WaitGroup -/

/-- Where a worker goroutine stands: at the receive on `work`, holding an item it has
received and not yet handled, or returned. -/
inductive Phase
  | ready
  | holding (item : String)
  | finished
deriving DecidableEq, Repr

/-- A worker goroutine. `received` and `invoked` are history: the items taken from the
channel, and the handler invocations made, each with the items it was given.
`buffer` is the BatchBuffer of a `submit` worker. -/
structure Worker where
  call : Call
  phase : Phase
  received : List String
  buffer : List String
  invoked : List (List String)
deriving DecidableEq, Repr

/-- A worker as `go h(work, wg, ...)` starts it. -/
def Worker.spawn (c : Call) : Worker :=
  ⟨c, .ready, [], [], []⟩

/-- A receive on `work` hands the item to the worker. -/
def Worker.receive (wk : Worker) (x : String) : Worker :=
  { wk with phase := .holding x, received := wk.received ++ [x] }

/-- Modelled from the spec: the body of the ten pool handlers (`subdomains.go`,
`submit.go` and the like are not among the sources). On receipt a worker invokes
the handler with the item (section 4.2); a `submit` worker appends the item to its
buffer and, when the buffer reaches `batchSize`, flushes it in one invocation and
clears it (section 4.4). -/
def Worker.handle (wk : Worker) (x : String) : Worker :=
  match wk.call with
  | .submit batchSize =>
    let b := wk.buffer ++ [x]
    if batchSize ≤ (b.length : Int) then
      { wk with phase := .ready, buffer := [], invoked := wk.invoked ++ [b] }
    else
      { wk with phase := .ready, buffer := b }
  | _ => { wk with phase := .ready, invoked := wk.invoked ++ [[x]] }

/-- Modelled from the spec: what a pool handler does when it finds the channel closed
and drained: it exits (section 4.2); a `submit` worker first flushes a remaining
non-empty buffer, once (section 4.4). The completion signal `wg.Done()` is part of
`stepWorker`. -/
def Worker.leave (wk : Worker) : Worker :=
  match wk.call with
  | .submit _ =>
    if wk.buffer = [] then { wk with phase := .finished }
    else { wk with phase := .finished, buffer := [], invoked := wk.invoked ++ [wk.buffer] }
  | _ => { wk with phase := .finished }

/-- The running process. `main` holds the statements the main goroutine has still to
execute, `stream` the channel operations the streamer goroutine has still to execute
(`none` before it is started), `closed` the state of the unbuffered channel `work`,
`counter` the WaitGroup counter, `exited` the exit status once the process has ended.
`done`, `sent` and `closes` are history: the statements `main` has executed, the
items handed over on the channel, the number of `close(work)` executed. -/
structure Sys where
  main : List Act
  done : List Act
  Stdin : Scanner
  stream : Option (List ChanOp)
  closed : Bool
  closes : Nat
  sent : List String
  counter : Int
  workers : List Worker
  exited : Option Nat
deriving DecidableEq, Repr

/-- The process as the runtime starts it on a world. -/
def init (w : World) : Sys :=
  { main := (main w).trace, done := [], Stdin := w.Stdin, stream := none, closed := false,
    closes := 0, sent := [], counter := 0, workers := [], exited := none }

/-- Which goroutine moves: the main goroutine executes its next statement; the
streamer hands its next item to worker `i`, which is at the receive; the streamer
closes the channel; worker `i` takes its next step. -/
inductive Label
  | main
  | deliver (i : Nat)
  | close
  | worker (i : Nat)
deriving DecidableEq, Repr

/-- The main goroutine executes its next statement. `wg.Wait()` is enabled only while
the counter is zero; `os.Exit` and the return from `main` end the process. -/
def stepMain (s : Sys) : Option Sys :=
  match s.main with
  | [] => none
  | a :: rest =>
    let s1 := { s with main := rest, done := s.done ++ [a] }
    match a with
    | .goStreamer => some { s1 with stream := some (streamer s.Stdin) }
    | .wgAdd d => some { s1 with counter := s.counter + d }
    | .go c => some { s1 with workers := s.workers ++ [Worker.spawn c] }
    | .wgWait => if s.counter = 0 then some s1 else none
    | .osExit code => some { s1 with exited := some code }
    | .ret => some { s1 with exited := some 0 }
    | _ => some s1

/-- The send `work <- s.Text()` meets the receive of worker `i`: the channel is
unbuffered, so the send completes exactly when one receiver takes the item. -/
def stepDeliver (s : Sys) (i : Nat) : Option Sys :=
  match s.stream, s.workers[i]? with
  | some (.send x :: ops), some wk =>
    if wk.phase = .ready ∧ s.closed = false then
      some { s with stream := some ops, sent := s.sent ++ [x],
                    workers := s.workers.set i (wk.receive x) }
    else none
  | _, _ => none

/-- The streamer executes `close(work)`. -/
def stepClose (s : Sys) : Option Sys :=
  match s.stream with
  | some (.close :: ops) =>
    some { s with stream := some ops, closed := true, closes := s.closes + 1 }
  | _ => none

/-- Modelled from the spec: the receive loop of a pool handler, as one step of
worker `i` (the handler files are not among the sources). The worker handles the item
it holds, or, at the receive with the channel closed and drained, leaves its loop and
signals completion with `wg.Done()`, which lowers the WaitGroup counter by one. At the
receive with the channel open it is blocked. -/
def stepWorker (s : Sys) (i : Nat) : Option Sys :=
  match s.workers[i]? with
  | none => none
  | some wk =>
    match wk.phase with
    | .holding x => some { s with workers := s.workers.set i (wk.handle x) }
    | .ready =>
      if s.closed then
        some { s with workers := s.workers.set i wk.leave, counter := s.counter - 1 }
      else none
    | .finished => none

/-- One step of the process; no goroutine moves once the process has exited. -/
def step (s : Sys) (l : Label) : Option Sys :=
  if s.exited.isSome then none
  else
    match l with
    | .main => stepMain s
    | .deliver i => stepDeliver s i
    | .close => stepClose s
    | .worker i => stepWorker s i

/-- The process follows a schedule, as long as every step of it is enabled. -/
def run (s : Sys) : List Label → Option Sys
  | [] => some s
  | l :: ls =>
    match step s l with
    | none => none
    | some s1 => run s1 ls

/-- The worker has returned. -/
def Worker.isFinished (wk : Worker) : Bool :=
  match wk.phase with
  | .finished => true
  | _ => false

/-- The worker holds an item it has not handled yet. -/
def Worker.isHolding (wk : Worker) : Bool :=
  match wk.phase with
  | .holding _ => true
  | _ => false

/-- The item a worker holds, as a list. -/
def Phase.held : Phase → List String
  | .holding x => [x]
  | _ => []

/-- The items received by the workers, worker by worker. -/
def receivedAll (ws : List Worker) : List String :=
  (ws.map Worker.received).flatten

/-- The handler invocations of the workers, worker by worker. -/
def invokedAll (ws : List Worker) : List (List String) :=
  (ws.map Worker.invoked).flatten

/-- Number of workers that have returned. -/
def finishedCount (ws : List Worker) : Nat :=
  ws.countP Worker.isFinished

/-! ## Predicates used in the statements -/

/-- The configuration loads: `main` finds a home directory, a command name in
`os.Args[1]`, flags that parse to `fl`, and a config file that opens and decodes
to `doc`. -/
def Loaded (w : World) (cmd : String) (fl : FlagValues) (doc : YamlDoc) : Prop :=
  ∃ home prog rest, w.homeDir = .ok home ∧ w.Args = prog :: cmd :: rest ∧
    w.flags = .ok fl ∧
    w.files (fl.c.getD (home ++ "/.config/haktools/haktrails-config.yml")) = .ok (.ok doc)

/-- The configuration fails: `main` gets as far as the config file, and the file
cannot be opened or its contents cannot be decoded; `e` is the error. -/
def ConfigFails (w : World) (e : String) : Prop :=
  ∃ home prog cmd rest fl, w.homeDir = .ok home ∧ w.Args = prog :: cmd :: rest ∧
    w.flags = .ok fl ∧
    (w.files (fl.c.getD (home ++ "/.config/haktools/haktrails-config.yml")) = .error e ∨
     w.files (fl.c.getD (home ++ "/.config/haktools/haktrails-config.yml")) = .ok (.error e))

/-- The statements of `main` between the flag parse and the command switch, when the
config file at `path` loads. -/
def setup (path : String) : List Act :=
  [.colorSet .FgRed, .osOpen path, .colorUnset, .makeChan, .goStreamer, .newWaitGroup]

/-- Every value that the config document and the environment give. -/
def givenValues (w : World) (doc : YamlDoc) : List String :=
  doc.securitytrailsKey.toList ++ doc.others.map Prod.snd ++ w.environ.map Prod.snd

/-- How far the main goroutine is with the pool: the streamer is not started yet; it
is started and no `wg.Add` is open; `wg.Add(1)` is executed and the `go` statement that
belongs to it is next; `wg.Wait()` has returned. -/
inductive Stage
  | idle
  | running
  | pending
  | waited
deriving DecidableEq, Repr

/-- The remaining statements of the main goroutine fit the stage: the streamer is
started once and before any worker, every `wg.Add` adds 1 and is followed at once by
its `go` statement, nothing is started after `wg.Wait()`, and the sequence ends in
the return from `main` or in `os.Exit`. -/
def shape : Stage → List Act → Bool
  | _, [] => false
  | st, a :: rest =>
    match a with
    | .ret => rest.isEmpty && st != .pending
    | .osExit _ => rest.isEmpty && st != .pending
    | .goStreamer => st == .idle && shape .running rest
    | .wgAdd d => d == 1 && st == .running && shape .pending rest
    | .go _ => st == .pending && shape .running rest
    | .wgWait => st == .running && shape .waited rest
    | _ => st != .pending && shape st rest

/-- The streamer goroutine and the channel agree with the input lines: either the
streamer is in its loop with the lines `rest` still to send, the lines before them
handed over, and the channel open; or it has closed the channel, once, after all
lines were handed over. -/
def StreamOK (lines : List String) (s : Sys) : Prop :=
  match s.stream with
  | none => s.closed = false ∧ s.sent = [] ∧ s.closes = 0
  | some ops =>
    (∃ rest, ops = streamLoop rest ∧ s.sent ++ rest = lines ∧ s.closed = false ∧
      s.closes = 0) ∨
    (ops = [] ∧ s.sent = lines ∧ s.closed = true ∧ s.closes = 1)

/-- A worker is consistent: what it received is what it passed to the handler, then
what it buffers, then what it holds; it returns only from a closed channel and with
an empty buffer; no invocation is empty; a per-item handler buffers nothing and
is invoked with one item at a time. -/
def WorkerOK (closed : Bool) (wk : Worker) : Prop :=
  wk.received = wk.invoked.flatten ++ wk.buffer ++ wk.phase.held ∧
  (wk.phase = .finished → closed = true ∧ wk.buffer = []) ∧
  (∀ b ∈ wk.invoked, b ≠ []) ∧
  (wk.call.handler ≠ .submit → wk.buffer = [] ∧ ∀ b ∈ wk.invoked, b.length = 1)

/-- A `submit` worker batches as section 4.4 says, for a batch size `b ≥ 1`: while it
runs, every invocation so far had a full batch of `b` items and the buffer holds fewer
than `b`; once it has returned, the number of its invocations is the number of items
it passed on, divided by `b` and rounded up, and no batch has more than `b` items. -/
def BatchOK (wk : Worker) : Prop :=
  ∀ b : Nat, 1 ≤ b → wk.call = .submit (b : Int) →
    (wk.phase ≠ .finished →
      (∀ batch ∈ wk.invoked, batch.length = b) ∧ wk.buffer.length < b) ∧
    (wk.phase = .finished →
      wk.invoked.length = (wk.invoked.flatten.length + b - 1) / b ∧
      ∀ batch ∈ wk.invoked, batch.length ≤ b)

/-- The invariant of a run on the input `lines`, at stage `st` of the main goroutine. -/
structure Inv (lines : List String) (s : Sys) (st : Stage) : Prop where
  prog : s.exited = none → shape st s.main = true
  fin : s.exited ≠ none → s.main = []
  idle : st = .idle ↔ s.stream = none
  idleWorkers : st = .idle → s.workers = []
  waited : st = .waited ↔ Act.wgWait ∈ s.done
  count : s.counter + (finishedCount s.workers : Int)
            = (s.workers.length : Int) + (if st = .pending then 1 else 0)
  allFinished : st = .waited → ∀ wk ∈ s.workers, wk.phase = .finished
  stdin : s.Stdin.tokens = lines
  stream : StreamOK lines s
  workers : ∀ wk ∈ s.workers, WorkerOK s.closed wk
  perm : (receivedAll s.workers).Perm s.sent
  calls : s.workers.map Worker.call = goCalls s.done
  batch : ∀ wk ∈ s.workers, BatchOK wk

/-- Weight of a worker in the termination measure `workLeft`. -/
def Worker.weight (wk : Worker) : Nat :=
  match wk.phase with
  | .ready => 1
  | .holding _ => 2
  | .finished => 0

/-- Termination measure: the work the goroutines have left; every step of the process
lowers it. -/
def workLeft (s : Sys) : Nat :=
  2 * s.main.length
  + (match s.stream with
     | none => 2 * (s.Stdin.tokens.length + 1)
     | some ops => 2 * ops.length)
  + (s.workers.map Worker.weight).sum

/-! ## Sample worlds -/

/-- A file system in which every path opens and decodes to `doc`. -/
def fsWith (doc : YamlDoc) : String → Except String (Except String YamlDoc) :=
  fun _ => .ok (.ok doc)

/-- A world running `haktrails <cmd>` with the flag values `fl`, a config file that
holds the key `k`, and the given standard input. -/
def sampleWorld (cmd : String) (fl : FlagValues) (lines : List String) : World :=
  { homeDir := .ok "/home/u", Args := ["haktrails", cmd], flags := .ok fl,
    files := fsWith ⟨some "k", []⟩, environ := [], Stdin := ⟨lines, none, ""⟩ }

/-- No flag given. -/
def noFlags : FlagValues := ⟨none, none, none, none, none, none⟩

/-- Only `-t n` given. -/
def flagT (n : Int) : FlagValues := ⟨some n, none, none, none, none, none⟩

/-- A schedule: the main goroutine takes `n` steps in a row. -/
def mainSteps (n : Nat) : List Label := List.replicate n .main

/-- A config document that gives a key and, beside it, a base URL. -/
def docWithUrl : YamlDoc :=
  ⟨some "k", [("securitytrails.url", "https://example.test/v1/")]⟩

/-- A world running `haktrails ping` whose config file and environment both give a
base URL. -/
def worldWithUrl : World :=
  { homeDir := .ok "/home/u", Args := ["haktrails", "ping"], flags := .ok noFlags,
    files := fsWith docWithUrl,
    environ := [("SECURITYTRAILS_URL", "https://example.test/v1/")],
    Stdin := ⟨[], none, ""⟩ }

/-- A world whose config file cannot be opened. -/
def worldNoFile : World :=
  { homeDir := .ok "/home/u", Args := ["haktrails", "subdomains"], flags := .ok noFlags,
    files := fun _ => .error "no such file or directory", environ := [],
    Stdin := ⟨["a.com"], none, ""⟩ }

/-- A world running `haktrails subdomains -t 0` with one line on standard input. -/
def worldZero : World := sampleWorld "subdomains" (flagT 0) ["a.com"]

/-- A world running `haktrails submit -t 1 -b 2` with three lines on standard input. -/
def worldSubmit : World :=
  sampleWorld "submit" ⟨some 1, some 2, none, none, none, none⟩ ["a.com", "b.com", "c.com"]

/-- A schedule of `worldSubmit`: `main` up to `wg.Wait()`, the three lines handed to the
one worker and handled one after the other, the close, the worker's return, then the rest
of `main`. -/
def schedSubmit : List Label :=
  mainSteps 8 ++ [.deliver 0, .worker 0, .deliver 0, .worker 0, .deliver 0, .worker 0,
    .close, .worker 0] ++ mainSteps 3

/-- A world running a pool-driven command with `-t 2` and the two input lines `a.com`
and `b.com`. -/
def worldTwo (cmd : String) : World := sampleWorld cmd (flagT 2) ["a.com", "b.com"]

/-- A schedule of `worldTwo`: `main` up to `wg.Wait()`, one line handed to each of the two
workers, both handled, the close, both workers' return, then the rest of `main`. -/
def schedTwo : List Label :=
  mainSteps 10 ++ [.deliver 0, .deliver 1, .worker 1, .worker 0, .close, .worker 0,
    .worker 1] ++ mainSteps 3

/-! ## The main goroutine -/

theorem main_loaded (w : World) (cmd : String) (fl : FlagValues) (doc : YamlDoc)
    (h : Loaded w cmd fl doc) :
    ∃ path, (main w).trace = setup path ++
        dispatch cmd (concurrency fl) (fl.b.getD 100) (fl.type.getD "a") (fl.query.getD "")
          [.fClose, .ret] ∧
      (main w).config = some (decodeConfig doc) ∧
      (main w).apiEndpoint = "https://api.securitytrails.com/v1/" ∧
      (main w).output = fl.o.getD "list" := by
  obtain ⟨home, prog, rest, hh, ha, hf, ho⟩ := h
  refine ⟨fl.c.getD (home ++ "/.config/haktools/haktrails-config.yml"), ?_⟩
  simp only [main, hh, ha, hf, ho, setup, concurrency]
  simp

theorem poolCall_cases (cmd : String) (b : Int) (lt : String) (c : Call)
    (h : poolCall cmd b lt = some c) :
    (cmd = "submit" ∧ c = .submit b) ∨ (cmd = "historicalwhois" ∧ c = .historicalwhois) ∨
    (cmd = "historicaldns" ∧ c = .historicaldns lt) ∨ (cmd = "tags" ∧ c = .tags) ∨
    (cmd = "whois" ∧ c = .whois) ∨ (cmd = "company" ∧ c = .company) ∨
    (cmd = "details" ∧ c = .details) ∨ (cmd = "subdomains" ∧ c = .subdomains) ∨
    (cmd = "associateddomains" ∧ c = .associatedDomains) ∨
    (cmd = "associatedips" ∧ c = .associatedIPs) := by
  unfold poolCall at h
  by_cases h1 : cmd = "submit"
  · simp [h1] at h; simp [h1, h]
  rw [if_neg h1] at h
  by_cases h2 : cmd = "historicalwhois"
  · simp [h2] at h; simp [h2, h]
  rw [if_neg h2] at h
  by_cases h3 : cmd = "historicaldns"
  · simp [h3] at h; simp [h3, h]
  rw [if_neg h3] at h
  by_cases h4 : cmd = "tags"
  · simp [h4] at h; simp [h4, h]
  rw [if_neg h4] at h
  by_cases h5 : cmd = "whois"
  · simp [h5] at h; simp [h5, h]
  rw [if_neg h5] at h
  by_cases h6 : cmd = "company"
  · simp [h6] at h; simp [h6, h]
  rw [if_neg h6] at h
  by_cases h7 : cmd = "details"
  · simp [h7] at h; simp [h7, h]
  rw [if_neg h7] at h
  by_cases h8 : cmd = "subdomains"
  · simp [h8] at h; simp [h8, h]
  rw [if_neg h8] at h
  by_cases h9 : cmd = "associateddomains"
  · simp [h9] at h; simp [h9, h]
  rw [if_neg h9] at h
  by_cases h10 : cmd = "associatedips"
  · simp [h10] at h; simp [h10, h]
  rw [if_neg h10] at h
  simp at h

theorem poolCall_of_mem (cmd : String) (b : Int) (lt : String) (h : cmd ∈ poolCommands) :
    ∃ c, poolCall cmd b lt = some c := by
  simp only [poolCommands, List.mem_cons, List.mem_singleton, List.not_mem_nil, or_false] at h
  rcases h with h | h | h | h | h | h | h | h | h | h <;> subst h <;> simp [poolCall]

theorem dispatch_pool (cmd : String) (n b : Int) (lt q : String) (k : List Act) (c : Call)
    (h : poolCall cmd b lt = some c) :
    dispatch cmd n b lt q k = pool n c ++ k := by
  rcases poolCall_cases cmd b lt c h with h | h | h | h | h | h | h | h | h | h <;>
    obtain ⟨h1, h2⟩ := h <;> subst h1 <;> subst h2 <;> simp [dispatch]

theorem dispatch_default (cmd : String) (n b : Int) (lt q : String) (k : List Act)
    (hp : cmd ∉ poolCommands) (hd : cmd ∉ ["dsl", "ping", "usage", "banner"]) :
    dispatch cmd n b lt q k = help ++ [.osExit 1] := by
  simp only [poolCommands, List.mem_cons, List.mem_singleton, List.not_mem_nil, or_false,
    not_or] at hp hd
  obtain ⟨p1, p2, p3, p4, p5, p6, p7, p8, p9, p10⟩ := hp
  obtain ⟨d1, d2, d3, d4⟩ := hd
  unfold dispatch
  rw [if_neg d4, if_neg p1, if_neg d1, if_neg p2, if_neg p3, if_neg p4, if_neg p5, if_neg p6,
    if_neg p7, if_neg d2, if_neg d3, if_neg p8, if_neg p9, if_neg p10]

theorem goCalls_append (xs ys : List Act) :
    goCalls (xs ++ ys) = goCalls xs ++ goCalls ys := by
  induction xs with
  | nil => rfl
  | cons a xs ih => cases a <;> simp [goCalls, ih]

theorem goCalls_spawnLoop (c : Call) (k : Nat) :
    goCalls (spawnLoop c k) = List.replicate k c := by
  induction k with
  | zero => rfl
  | succ k ih => simp [spawnLoop, goCalls, ih, List.replicate_succ]

theorem count_spawnLoop (c : Call) (k : Nat) (a : Act) (h1 : a ≠ .wgAdd 1)
    (h2 : a ≠ .go c) : (spawnLoop c k).count a = 0 := by
  induction k with
  | zero => rfl
  | succ k ih =>
    simp only [spawnLoop, List.count_cons, ih]
    simp [Ne.symm h1, Ne.symm h2]

theorem count_wgAdd_spawnLoop (c : Call) (k : Nat) :
    (spawnLoop c k).count (.wgAdd 1) = k := by
  induction k with
  | zero => rfl
  | succ k ih => simp [spawnLoop, List.count_cons, ih]

theorem pool_trace (w : World) (cmd : String) (fl : FlagValues) (doc : YamlDoc) (c : Call)
    (hl : Loaded w cmd fl doc)
    (hc : poolCall cmd (fl.b.getD 100) (fl.type.getD "a") = some c) :
    ∃ path, (main w).trace
      = setup path ++ (spawnLoop c (concurrency fl).toNat ++ [.wgWait, .fClose, .ret]) := by
  obtain ⟨path, ht, _⟩ := main_loaded w cmd fl doc hl
  refine ⟨path, ?_⟩
  rw [ht, dispatch_pool _ _ _ _ _ _ c hc]
  simp [pool]
theorem sampleWorld_loaded (cmd : String) (fl : FlagValues) (lines : List String) :
    Loaded (sampleWorld cmd fl lines) cmd fl ⟨some "k", []⟩ :=
  ⟨"/home/u", "haktrails", [], rfl, rfl, rfl, rfl⟩

/-- C1: for a pool-driven command and a concurrency `N ≥ 1` given with `-t` (`N = 2`
when `-t` is absent), `main` starts exactly `N` goroutines, all of that command's
handler and none of another; it makes one channel and one WaitGroup, which all of them
share, and raises the WaitGroup counter by 1 for each of them. -/
theorem C1_pool_spawns_exactly_N (w : World) (cmd : String) (fl : FlagValues) (doc : YamlDoc)
    (N : Nat) (hl : Loaded w cmd fl doc) (hcmd : cmd ∈ poolCommands) (hN : 1 ≤ N)
    (ht : fl.t = some (N : Int) ∨ (fl.t = none ∧ N = 2)) :
    ∃ c, poolCall cmd (fl.b.getD 100) (fl.type.getD "a") = some c ∧
      goCalls (main w).trace = List.replicate N c ∧
      (∀ c1 ∈ goCalls (main w).trace, some c1.handler = handlerOf cmd) ∧
      (main w).trace.count .makeChan = 1 ∧
      (main w).trace.count .newWaitGroup = 1 ∧
      (main w).trace.count (.wgAdd 1) = N := by
  obtain ⟨c, hc⟩ := poolCall_of_mem cmd (fl.b.getD 100) (fl.type.getD "a") hcmd
  obtain ⟨path, htr⟩ := pool_trace w cmd fl doc c hl hc
  have hn : (concurrency fl).toNat = N := by
    rcases ht with h | ⟨h, h2⟩
    · simp [concurrency, h]
    · simp [concurrency, h, h2]
  have hN1 := hN
  have hgo : goCalls (main w).trace = List.replicate N c := by
    rw [htr, hn, goCalls_append, goCalls_append, goCalls_spawnLoop]
    simp [setup, goCalls]
  have hh : some c.handler = handlerOf cmd := by
    rcases poolCall_cases cmd _ _ c hc with h | h | h | h | h | h | h | h | h | h <;>
      obtain ⟨h1, h2⟩ := h <;> subst h1 <;> subst h2 <;>
      simp [handlerOf, poolCall, Call.handler]
  refine ⟨c, hc, hgo, ?_, ?_, ?_, ?_⟩
  · intro c1 h1
    rw [hgo] at h1
    rw [List.eq_of_mem_replicate h1]
    exact hh
  · rw [htr, hn]
    simp [List.count_append, count_spawnLoop, setup, List.count_cons]
  · rw [htr, hn]
    simp [List.count_append, count_spawnLoop, setup, List.count_cons]
  · rw [htr, hn]
    simp [List.count_append, count_wgAdd_spawnLoop, setup, List.count_cons]

theorem C1_pool_spawns_exactly_N_witness :
    ∃ c, poolCall "historicaldns" ((flagT 3).b.getD 100) ((flagT 3).type.getD "a") = some c ∧
      goCalls (main (sampleWorld "historicaldns" (flagT 3) ["a.com"])).trace
        = List.replicate 3 c ∧
      (∀ c1 ∈ goCalls (main (sampleWorld "historicaldns" (flagT 3) ["a.com"])).trace,
        some c1.handler = handlerOf "historicaldns") ∧
      (main (sampleWorld "historicaldns" (flagT 3) ["a.com"])).trace.count .makeChan = 1 ∧
      (main (sampleWorld "historicaldns" (flagT 3) ["a.com"])).trace.count .newWaitGroup = 1 ∧
      (main (sampleWorld "historicaldns" (flagT 3) ["a.com"])).trace.count (.wgAdd 1) = 3 :=
  C1_pool_spawns_exactly_N (sampleWorld "historicaldns" (flagT 3) ["a.com"]) "historicaldns"
    (flagT 3) ⟨some "k", []⟩ 3 (sampleWorld_loaded _ _ _) (by decide) (by decide)
    (Or.inl rfl)

/-- C6: with a configuration that loads, `os.Args[1]` selects what `main` does after
the set-up: each of the ten pool-driven names runs the spawn loop of its own handler
and waits; `dsl`, `ping` and `usage` make one direct call, `banner` prints the banner
text in green, and none of the four starts a worker; every other string calls no handler,
prints the help text in yellow and leaves through `os.Exit(1)`, so that the process ends
with status 1 after ten statements of `main`, without a worker. -/
theorem C6_command_selects_handler (w : World) (cmd : String) (fl : FlagValues)
    (doc : YamlDoc) (hl : Loaded w cmd fl doc) :
    ∃ path,
      (cmd ∈ poolCommands →
        ∃ c, poolCall cmd (fl.b.getD 100) (fl.type.getD "a") = some c ∧
          some c.handler = handlerOf cmd ∧
          (main w).trace = setup path ++ spawnLoop c (concurrency fl).toNat
            ++ [.wgWait, .fClose, .ret] ∧
          goCalls (main w).trace = List.replicate (concurrency fl).toNat c) ∧
      (cmd = "dsl" →
        (main w).trace = setup path ++ [.dsl (fl.query.getD ""), .fClose, .ret]) ∧
      (cmd = "ping" → (main w).trace = setup path ++ [.ping, .fClose, .ret]) ∧
      (cmd = "usage" → (main w).trace = setup path ++ [.usage, .fClose, .ret]) ∧
      (cmd = "banner" →
        (main w).trace = setup path ++
          [.colorSet .FgGreen, .println .bannerText, .colorUnset, .fClose, .ret]) ∧
      (cmd ∉ poolCommands → goCalls (main w).trace = []) ∧
      (cmd ∉ poolCommands → cmd ∉ ["dsl", "ping", "usage", "banner"] →
        (main w).trace = setup path ++
          [.colorSet .FgYellow, .println .helpText, .colorUnset, .osExit 1] ∧
        (∀ a ∈ (main w).trace, a.isDirect = false) ∧
        Act.println .bannerText ∉ (main w).trace ∧
        ∃ s, run (init w) (mainSteps 10) = some s ∧ s.exited = some 1 ∧ s.workers = []) := by
  obtain ⟨path, htr, _⟩ := main_loaded w cmd fl doc hl
  refine ⟨path, ?_, ?_, ?_, ?_, ?_, ?_, ?_⟩
  · intro hcmd
    obtain ⟨c, hc⟩ := poolCall_of_mem cmd (fl.b.getD 100) (fl.type.getD "a") hcmd
    have hh : some c.handler = handlerOf cmd := by
      rcases poolCall_cases cmd _ _ c hc with h | h | h | h | h | h | h | h | h | h <;>
        obtain ⟨h1, h2⟩ := h <;> subst h1 <;> subst h2 <;>
        simp [handlerOf, poolCall, Call.handler]
    refine ⟨c, hc, hh, ?_, ?_⟩
    · rw [htr, dispatch_pool _ _ _ _ _ _ c hc]; simp [pool]
    · rw [htr, dispatch_pool _ _ _ _ _ _ c hc, pool, goCalls_append, goCalls_append,
        goCalls_append, goCalls_spawnLoop]
      simp [setup, goCalls]
  · intro h; subst h; rw [htr]; simp [dispatch]
  · intro h; subst h; rw [htr]; simp [dispatch]
  · intro h; subst h; rw [htr]; simp [dispatch]
  · intro h; subst h; rw [htr]; simp [dispatch, banner]
  · intro hp
    by_cases hd : cmd ∈ ["dsl", "ping", "usage", "banner"]
    · simp only [List.mem_cons, List.mem_singleton, List.not_mem_nil, or_false] at hd
      rcases hd with h | h | h | h <;> subst h <;> rw [htr] <;>
        simp [dispatch, setup, goCalls, banner]
    · rw [htr, dispatch_default _ _ _ _ _ _ hp hd]
      simp [setup, goCalls, help]
  · intro hp hd
    have htr1 : (main w).trace = setup path ++
        [.colorSet .FgYellow, .println .helpText, .colorUnset, .osExit 1] := by
      rw [htr, dispatch_default _ _ _ _ _ _ hp hd]
      simp [help]
    refine ⟨htr1, ?_, ?_, ?_⟩
    · intro a ha
      rw [htr1] at ha
      simp only [setup, List.mem_append, List.mem_cons, List.mem_singleton,
        List.not_mem_nil, or_false] at ha
      rcases ha with (h | h | h | h | h | h) | (h | h | h | h) <;> subst h <;> rfl
    · rw [htr1]
      simp [setup]
    · simp [mainSteps, List.replicate, run, step, stepMain, init, htr1, setup]

theorem C6_command_selects_handler_witness :
    goCalls (main (sampleWorld "whois" noFlags [])).trace = [.whois, .whois] ∧
    (main (sampleWorld "ping" noFlags [])).trace.drop 6 = [.ping, .fClose, .ret] ∧
    (main (sampleWorld "banner" noFlags [])).trace.drop 6
      = [.colorSet .FgGreen, .println .bannerText, .colorUnset, .fClose, .ret] ∧
    (main (sampleWorld "frobnicate" noFlags [])).trace.drop 6
      = [.colorSet .FgYellow, .println .helpText, .colorUnset, .osExit 1] := by
  obtain ⟨_, h1, _⟩ := C6_command_selects_handler (sampleWorld "whois" noFlags []) "whois"
    noFlags ⟨some "k", []⟩ (sampleWorld_loaded _ _ _)
  obtain ⟨c, hc, _, _, hgo⟩ := h1 (by decide)
  have hw : poolCall "whois" (noFlags.b.getD 100) (noFlags.type.getD "a") = some .whois := by
    decide
  rw [hw] at hc
  have hc1 : c = .whois := (Option.some.inj hc).symm
  obtain ⟨p2, _, _, h2, _⟩ := C6_command_selects_handler (sampleWorld "ping" noFlags [])
    "ping" noFlags ⟨some "k", []⟩ (sampleWorld_loaded _ _ _)
  obtain ⟨p3, _, _, _, _, h3, _⟩ := C6_command_selects_handler
    (sampleWorld "banner" noFlags []) "banner" noFlags ⟨some "k", []⟩
    (sampleWorld_loaded _ _ _)
  obtain ⟨p4, _, _, _, _, _, _, h4⟩ := C6_command_selects_handler
    (sampleWorld "frobnicate" noFlags []) "frobnicate" noFlags ⟨some "k", []⟩
    (sampleWorld_loaded _ _ _)
  refine ⟨?_, ?_, ?_, ?_⟩
  · rw [hgo, hc1]
    rfl
  · rw [h2 rfl]
    rfl
  · rw [h3 rfl]
    rfl
  · rw [(h4 (by decide) (by decide)).1]
    rfl

/-- C5: when the config file cannot be opened or cannot be decoded, `main` prints the
error and returns: the streamer goroutine is not started, no worker is started, none of
`dsl`, `ping`, `usage`, `banner`, `help` is called, and `config` stays nil. -/
theorem C5_config_failure_is_fatal (w : World) (e : String) (h : ConfigFails w e) :
    (∃ path, (main w).trace
        = [.colorSet .FgRed, .osOpen path, .println (.errOpenConfig e), .ret] ∨
      (main w).trace
        = [.colorSet .FgRed, .osOpen path, .println (.errDecodeConfig e), .fClose, .ret]) ∧
    (∃ a ∈ (main w).trace, a.isError = true) ∧
    (main w).trace.getLast? = some .ret ∧
    Act.goStreamer ∉ (main w).trace ∧
    goCalls (main w).trace = [] ∧
    (∀ a ∈ (main w).trace, a.isDirect = false) ∧
    Act.println .bannerText ∉ (main w).trace ∧
    Act.println .helpText ∉ (main w).trace ∧
    (main w).config = none := by
  obtain ⟨home, prog, cmd, rest, fl, hh, ha, hf, ho⟩ := h
  rcases ho with ho | ho
  · have ht : (main w).trace = [.colorSet .FgRed,
        .osOpen (fl.c.getD (home ++ "/.config/haktools/haktrails-config.yml")),
        .println (.errOpenConfig e), .ret] := by
      simp only [main, hh, ha, hf, ho]
    have hc : (main w).config = none := by
      simp only [main, hh, ha, hf, ho]
    refine ⟨⟨_, Or.inl ht⟩, ?_, ?_, ?_, ?_, ?_, ?_, ?_, hc⟩ <;> rw [ht] <;>
      simp [goCalls, Act.isDirect, Act.isError]
  · have ht : (main w).trace = [.colorSet .FgRed,
        .osOpen (fl.c.getD (home ++ "/.config/haktools/haktrails-config.yml")),
        .println (.errDecodeConfig e), .fClose, .ret] := by
      simp only [main, hh, ha, hf, ho]
    have hc : (main w).config = none := by
      simp only [main, hh, ha, hf, ho]
    refine ⟨⟨_, Or.inr ht⟩, ?_, ?_, ?_, ?_, ?_, ?_, ?_, hc⟩ <;> rw [ht] <;>
      simp [goCalls, Act.isDirect, Act.isError]

theorem C5_config_failure_is_fatal_witness :
    (∃ path, (main worldNoFile).trace
        = [.colorSet .FgRed, .osOpen path,
            .println (.errOpenConfig "no such file or directory"), .ret] ∨
      (main worldNoFile).trace
        = [.colorSet .FgRed, .osOpen path,
            .println (.errDecodeConfig "no such file or directory"), .fClose, .ret]) ∧
    (∃ a ∈ (main worldNoFile).trace, a.isError = true) ∧
    (main worldNoFile).trace.getLast? = some .ret ∧
    Act.goStreamer ∉ (main worldNoFile).trace ∧
    goCalls (main worldNoFile).trace = [] ∧
    (∀ a ∈ (main worldNoFile).trace, a.isDirect = false) ∧
    Act.println .bannerText ∉ (main worldNoFile).trace ∧
    Act.println .helpText ∉ (main worldNoFile).trace ∧
    (main worldNoFile).config = none :=
  C5_config_failure_is_fatal worldNoFile "no such file or directory"
    ⟨"/home/u", "haktrails", "subdomains", [], noFlags, rfl, rfl, rfl, Or.inl rfl⟩

/-- C7, as the claim states it, fails: with a config file and an environment that
both give a base URL, the base URL `main` sets is not a value given there. -/
theorem C7_base_url_not_from_config :
    Loaded worldWithUrl "ping" noFlags docWithUrl ∧
    (main worldWithUrl).apiEndpoint ∉ givenValues worldWithUrl docWithUrl :=
  ⟨⟨"/home/u", "haktrails", [], rfl, rfl, rfl, rfl⟩, by decide⟩

/-- C7, amended: the base URL is the constant `https://api.securitytrails.com/v1/`,
whatever the config file and the environment hold; the API key is supplied by the
configuration: when the environment does not set `SECURITYTRAILS_KEY`, it is the value
at `securitytrails.key` of the config file, empty when the file has none. -/
theorem C7_key_from_file_url_constant (w : World) (cmd : String) (fl : FlagValues)
    (doc : YamlDoc) (hl : Loaded w cmd fl doc) :
    (main w).apiEndpoint = "https://api.securitytrails.com/v1/" ∧
    (w.environ.lookup "SECURITYTRAILS_KEY" = none →
      (main w).config = some ⟨⟨doc.securitytrailsKey.getD ""⟩⟩) := by
  obtain ⟨path, _, hc, ha, _⟩ := main_loaded w cmd fl doc hl
  exact ⟨ha, fun _ => by rw [hc]; rfl⟩

theorem C7_key_from_file_url_constant_witness :
    (main worldWithUrl).apiEndpoint = "https://api.securitytrails.com/v1/" ∧
    (worldWithUrl.environ.lookup "SECURITYTRAILS_KEY" = none →
      (main worldWithUrl).config = some ⟨⟨docWithUrl.securitytrailsKey.getD ""⟩⟩) :=
  C7_key_from_file_url_constant worldWithUrl "ping" noFlags docWithUrl
    ⟨"/home/u", "haktrails", [], rfl, rfl, rfl, rfl⟩

/-- C8, as the claim states it, fails: for the banner command, and for `help`, `main`
starts the streamer goroutine on standard input. -/
theorem C8_banner_starts_streamer :
    Loaded (sampleWorld "banner" noFlags ["a.com"]) "banner" noFlags ⟨some "k", []⟩ ∧
    Act.goStreamer ∈ (main (sampleWorld "banner" noFlags ["a.com"])).trace ∧
    Act.goStreamer ∈ (main (sampleWorld "help" noFlags ["a.com"])).trace :=
  ⟨sampleWorld_loaded _ _ _, by decide, by decide⟩

/-- C8, amended: for the banner command, and for `help`, `main` prints the text and
starts no worker; the streamer goroutine is started before the command switch, as for
every other command. -/
theorem C8_cosmetic_no_worker (w : World) (cmd : String) (fl : FlagValues) (doc : YamlDoc)
    (hl : Loaded w cmd fl doc) (hc : cmd = "banner" ∨ cmd = "help") :
    ∃ path,
      (cmd = "banner" → (main w).trace = setup path ++ banner ++ [.fClose, .ret]) ∧
      (cmd = "help" → (main w).trace = setup path ++ help ++ [.osExit 1]) ∧
      goCalls (main w).trace = [] ∧
      Act.goStreamer ∈ (main w).trace ∧
      (Act.println .bannerText ∈ (main w).trace ∨ Act.println .helpText ∈ (main w).trace) := by
  obtain ⟨path, htr, _⟩ := main_loaded w cmd fl doc hl
  refine ⟨path, ?_⟩
  rcases hc with h | h <;> subst h <;> rw [htr] <;>
    simp [dispatch, setup, goCalls, banner, help]

theorem C8_cosmetic_no_worker_witness :
    ∃ path,
      ("banner" = "banner" → (main (sampleWorld "banner" noFlags ["a.com"])).trace
        = setup path ++ banner ++ [.fClose, .ret]) ∧
      ("banner" = "help" → (main (sampleWorld "banner" noFlags ["a.com"])).trace
        = setup path ++ help ++ [.osExit 1]) ∧
      goCalls (main (sampleWorld "banner" noFlags ["a.com"])).trace = [] ∧
      Act.goStreamer ∈ (main (sampleWorld "banner" noFlags ["a.com"])).trace ∧
      (Act.println .bannerText ∈ (main (sampleWorld "banner" noFlags ["a.com"])).trace ∨
        Act.println .helpText ∈ (main (sampleWorld "banner" noFlags ["a.com"])).trace) :=
  C8_cosmetic_no_worker (sampleWorld "banner" noFlags ["a.com"]) "banner" noFlags
    ⟨some "k", []⟩ (sampleWorld_loaded _ _ _) (Or.inl rfl)

/-- C3, as the claim states it, fails: on the input lines `a.com`, an empty line and
`b.com` the streamer sends the empty string, and it sends three items where two lines
are non-empty. -/
theorem C3_blank_line_is_sent :
    "" ∈ sends (streamer ⟨["a.com", "", "b.com"], none, ""⟩) ∧
    (sends (streamer ⟨["a.com", "", "b.com"], none, ""⟩)).length = 3 ∧
    (["a.com", "", "b.com"].filter (fun l => l ≠ "")).length = 2 := by
  decide

/-- C3, amended: the streamer publishes one item for every line the scanner yields,
empty lines included, so the items published are the input lines and their number
is the number of input lines. -/
theorem C3_every_line_is_sent (sc : Scanner) :
    sends (streamer sc) = sc.tokens ∧ (sends (streamer sc)).length = sc.tokens.length := by
  have h : ∀ ts : List String, sends (streamLoop ts) = ts := by
    intro ts
    induction ts with
    | nil => rfl
    | cons t ts ih => simp [streamLoop, sends, ih]
  simp [streamer, h]

/-! ## Runs of the process: the invariant -/

theorem set_split {α : Type} (ws : List α) (i : Nat) (x : α) (h : ws[i]? = some x) :
    ∃ l1 l2, ws = l1 ++ x :: l2 ∧ ∀ y, ws.set i y = l1 ++ y :: l2 := by
  induction ws generalizing i with
  | nil => simp at h
  | cons a ws ih =>
    cases i with
    | zero =>
      simp at h
      subst h
      exact ⟨[], ws, rfl, fun y => rfl⟩
    | succ i =>
      simp at h
      obtain ⟨l1, l2, h1, h2⟩ := ih i h
      refine ⟨a :: l1, l2, by simp [h1], fun y => ?_⟩
      simp [List.set, h2 y]

theorem goCalls_snoc (xs : List Act) (a : Act) :
    goCalls (xs ++ [a]) = goCalls xs ++ (match a with | .go c => [c] | _ => []) := by
  rw [goCalls_append]
  cases a <;> rfl

theorem finishedCount_le (ws : List Worker) : finishedCount ws ≤ ws.length :=
  List.countP_le_length _

theorem length_flatten_const (bs : List (List String)) (b : Nat)
    (h : ∀ batch ∈ bs, batch.length = b) : bs.flatten.length = bs.length * b := by
  induction bs with
  | nil => simp
  | cons x bs ih =>
    have h1 := h x (by simp)
    have h2 := ih (fun y hy => h y (by simp [hy]))
    simp only [List.flatten_cons, List.length_append, List.length_cons, h1, h2, Nat.succ_mul]
    omega

theorem ceil_full (k b : Nat) (hb : 1 ≤ b) : (k * b + b - 1) / b = k := by
  apply Nat.div_eq_of_lt_le
  · omega
  · rw [Nat.succ_mul]
    omega

theorem ceil_part (k b r : Nat) (h0 : 0 < r) (hr : r ≤ b) :
    (k * b + r + b - 1) / b = k + 1 := by
  apply Nat.div_eq_of_lt_le
  · rw [Nat.succ_mul]
    omega
  · rw [Nat.succ_mul, Nat.succ_mul]
    omega

theorem batchOK_spawn (c : Call) : BatchOK (Worker.spawn c) := by
  intro b hb _
  refine ⟨fun _ => ⟨by simp [Worker.spawn], ?_⟩, fun hf => by simp [Worker.spawn] at hf⟩
  simp only [Worker.spawn, List.length_nil]
  omega

theorem batchOK_receive {wk : Worker} {x : String} (h : BatchOK wk)
    (hr : wk.phase = .ready) : BatchOK (wk.receive x) := by
  intro b hb hc
  have h1 := (h b hb hc).1 (by simp [hr])
  exact ⟨fun _ => h1, fun hf => by simp [Worker.receive] at hf⟩

theorem batchOK_handle {wk : Worker} {x : String} (h : BatchOK wk)
    (hr : wk.phase = .holding x) : BatchOK (wk.handle x) := by
  intro b hb hc
  have hcall : (wk.handle x).call = wk.call := by
    unfold Worker.handle
    cases wk.call <;> first | rfl | (simp only []; split <;> rfl)
  rw [hcall] at hc
  obtain ⟨hall, hlt⟩ := (h b hb hc).1 (by simp [hr])
  unfold Worker.handle
  simp only [hc]
  split
  · rename_i hle
    simp only [List.length_append, List.length_singleton, Nat.cast_add, Nat.cast_one] at hle
    refine ⟨fun _ => ⟨?_, ?_⟩, fun hf => by simp at hf⟩
    · intro batch hb1
      simp only [List.mem_append, List.mem_singleton] at hb1
      rcases hb1 with hb1 | hb1
      · exact hall batch hb1
      · subst hb1
        simp only [List.length_append, List.length_singleton]
        omega
    · simp only [List.length_nil]
      omega
  · rename_i hle
    simp only [List.length_append, List.length_singleton, Nat.cast_add, Nat.cast_one] at hle
    refine ⟨fun _ => ⟨hall, ?_⟩, fun hf => by simp at hf⟩
    simp only [List.length_append, List.length_singleton]
    omega

theorem batchOK_leave {wk : Worker} (h : BatchOK wk) (hr : wk.phase = .ready) :
    BatchOK wk.leave := by
  intro b hb hc
  have hcall : wk.leave.call = wk.call := by
    unfold Worker.leave
    cases wk.call <;> first | rfl | (simp only []; split <;> rfl)
  rw [hcall] at hc
  obtain ⟨hall, hlt⟩ := (h b hb hc).1 (by simp [hr])
  have hflat := length_flatten_const wk.invoked b hall
  unfold Worker.leave
  simp only [hc]
  split
  · refine ⟨fun hne => by simp at hne, fun _ => ⟨?_, fun batch hb1 => le_of_eq (hall batch hb1)⟩⟩
    simp only [hflat]
    exact (ceil_full _ b hb).symm
  · rename_i hne
    have hpos : 0 < wk.buffer.length := List.length_pos.mpr hne
    refine ⟨fun hne1 => by simp at hne1, fun _ => ⟨?_, ?_⟩⟩
    · simp only [List.length_append, List.length_singleton, List.flatten_append,
        List.flatten_cons, List.flatten_nil, List.append_nil, hflat]
      exact (ceil_part _ b _ hpos (le_of_lt hlt)).symm
    · intro batch hb1
      simp only [List.mem_append, List.mem_singleton] at hb1
      rcases hb1 with hb1 | hb1
      · exact le_of_eq (hall batch hb1)
      · subst hb1
        exact le_of_lt hlt

theorem inv_main_plain {lines : List String} {s : Sys} {st : Stage} {a : Act}
    {rest : List Act} (h : Inv lines s st) (hex : s.exited = none)
    (hsh : shape st rest = true) (hw : a ≠ .wgWait) (hgo : a.isGo = false) (hp : st ≠ .pending) :
    Inv lines { s with main := rest, done := s.done ++ [a] } st where
  prog := fun _ => hsh
  fin := fun hne => absurd hex hne
  idle := h.idle
  idleWorkers := h.idleWorkers
  waited := by
    have := h.waited
    simp [this, Ne.symm hw]
  count := by
    have := h.count
    simpa [hp] using this
  allFinished := h.allFinished
  stdin := h.stdin
  stream := h.stream
  workers := h.workers
  perm := h.perm
  calls := by
    have := h.calls
    simp only [goCalls_snoc, this]
    cases a <;> simp_all [Act.isGo]
  batch := h.batch

theorem inv_main_exit {lines : List String} {s : Sys} {st : Stage} {a : Act} {code : Nat}
    (h : Inv lines s st) (hw : a ≠ .wgWait) (hgo : a.isGo = false) (hp : st ≠ .pending) :
    Inv lines { s with main := [], done := s.done ++ [a], exited := some code } st where
  prog := fun hne => by simp at hne
  fin := fun _ => rfl
  idle := h.idle
  idleWorkers := h.idleWorkers
  waited := by
    have := h.waited
    simp [this, Ne.symm hw]
  count := by
    have := h.count
    simpa [hp] using this
  allFinished := h.allFinished
  stdin := h.stdin
  stream := h.stream
  workers := h.workers
  perm := h.perm
  calls := by
    have := h.calls
    simp only [goCalls_snoc, this]
    cases a <;> simp_all [Act.isGo]
  batch := h.batch

theorem inv_stepMain {lines : List String} {s s1 : Sys} {st : Stage}
    (h : Inv lines s st) (hex : s.exited = none) (hs : stepMain s = some s1) :
    ∃ st1, Inv lines s1 st1 := by
  cases hm : s.main with
  | nil => simp [stepMain, hm] at hs
  | cons a rest =>
    have hsh := h.prog hex
    rw [hm] at hsh
    cases a with
    | goStreamer =>
      simp [stepMain, hm] at hs
      subst hs
      simp [shape] at hsh
      obtain ⟨h1, h2⟩ := hsh
      subst h1
      have hnone : s.stream = none := h.idle.mp rfl
      have hstr := h.stream
      simp only [StreamOK, hnone] at hstr
      refine ⟨.running, ?_⟩
      exact {
        prog := fun _ => h2
        fin := fun hne => absurd hex hne
        idle := by simp
        idleWorkers := by simp
        waited := by
          have := h.waited
          simp at this
          simp [this]
        count := by simpa using h.count
        allFinished := by simp
        stdin := h.stdin
        stream := by
          simp only [StreamOK]
          left
          exact ⟨lines, by simp [streamer, h.stdin], by simp [hstr.2.1], hstr.1, hstr.2.2⟩
        workers := h.workers
        perm := h.perm
        calls := by
          have := h.calls
          simp [goCalls_snoc, this]
        batch := h.batch }
    | wgAdd d =>
      simp [stepMain, hm] at hs
      subst hs
      simp [shape] at hsh
      obtain ⟨⟨h0, h1⟩, h2⟩ := hsh
      subst h0 h1
      have hsome : s.stream ≠ none := fun hn => by
        have := h.idle.mpr hn
        simp at this
      refine ⟨.pending, ?_⟩
      exact {
        prog := fun _ => h2
        fin := fun hne => absurd hex hne
        idle := by simp [hsome]
        idleWorkers := by simp
        waited := by
          have := h.waited
          simp at this
          simp [this]
        count := by
          have := h.count
          simp at this
          simp
          omega
        allFinished := by simp
        stdin := h.stdin
        stream := h.stream
        workers := h.workers
        perm := h.perm
        calls := by
          have := h.calls
          simp [goCalls_snoc, this]
        batch := h.batch }
    | go c =>
      simp [stepMain, hm] at hs
      subst hs
      simp [shape] at hsh
      obtain ⟨h1, h2⟩ := hsh
      subst h1
      have hsome : s.stream ≠ none := fun hn => by
        have := h.idle.mpr hn
        simp at this
      refine ⟨.running, ?_⟩
      exact {
        prog := fun _ => h2
        fin := fun hne => absurd hex hne
        idle := by simp [hsome]
        idleWorkers := by simp
        waited := by
          have := h.waited
          simp at this
          simp [this]
        count := by
          have := h.count
          simp at this
          simp [finishedCount, List.countP_append, Worker.spawn, Worker.isFinished] at this ⊢
          omega
        allFinished := by simp
        stdin := h.stdin
        stream := h.stream
        workers := by
          intro wk hwk
          simp at hwk
          rcases hwk with hwk | hwk
          · exact h.workers wk hwk
          · subst hwk
            simp [WorkerOK, Worker.spawn, Phase.held]
        perm := by
          have := h.perm
          simpa [receivedAll, Worker.spawn] using this
        calls := by
          have := h.calls
          simp [goCalls_snoc, this, Worker.spawn]
        batch := by
          intro wk hwk
          simp at hwk
          rcases hwk with hwk | hwk
          · exact h.batch wk hwk
          · subst hwk
            exact batchOK_spawn c }
    | wgWait =>
      simp [stepMain, hm] at hs
      obtain ⟨hc, hs⟩ := hs
      subst hs
      simp [shape] at hsh
      obtain ⟨h1, h2⟩ := hsh
      subst h1
      have hsome : s.stream ≠ none := fun hn => by
        have := h.idle.mpr hn
        simp at this
      have hcnt := h.count
      simp [hc] at hcnt
      refine ⟨.waited, ?_⟩
      exact {
        prog := fun _ => h2
        fin := fun hne => absurd hex hne
        idle := by simp [hsome]
        idleWorkers := by simp
        waited := by simp
        count := by simp [hc, hcnt]
        allFinished := by
          intro _ wk hwk
          have hall : finishedCount s.workers = s.workers.length := by exact_mod_cast hcnt
          have := (List.countP_eq_length (p := Worker.isFinished) (l := s.workers)).mp hall wk hwk
          simp only [Worker.isFinished] at this
          cases hph : wk.phase <;> simp_all
        stdin := h.stdin
        stream := h.stream
        workers := h.workers
        perm := h.perm
        calls := by
          have := h.calls
          simp [goCalls_snoc, this]
        batch := h.batch }
    | osExit code =>
      simp [stepMain, hm] at hs
      subst hs
      simp [shape] at hsh
      obtain ⟨h1, h2⟩ := hsh
      subst h1
      exact ⟨st, inv_main_exit h (by simp) rfl h2⟩
    | ret =>
      simp [stepMain, hm] at hs
      subst hs
      simp [shape] at hsh
      obtain ⟨h1, h2⟩ := hsh
      subst h1
      exact ⟨st, inv_main_exit h (by simp) rfl h2⟩
    | _ =>
      simp [stepMain, hm] at hs
      subst hs
      simp [shape] at hsh
      exact ⟨st, inv_main_plain h hex hsh.2 (by simp) rfl hsh.1⟩

theorem finishedCount_set (ws : List Worker) (i : Nat) (wk wk1 : Worker)
    (h : ws[i]? = some wk) :
    finishedCount (ws.set i wk1) + (if wk.isFinished then 1 else 0)
      = finishedCount ws + (if wk1.isFinished then 1 else 0) := by
  obtain ⟨l1, l2, h1, h2⟩ := set_split ws i wk h
  rw [h2 wk1, h1]
  simp only [finishedCount, List.countP_append, List.countP_cons]
  omega

theorem receivedAll_set (ws : List Worker) (i : Nat) (wk wk1 : Worker) (extra : List String)
    (h : ws[i]? = some wk) (hr : wk1.received = wk.received ++ extra) :
    (receivedAll (ws.set i wk1)).Perm (receivedAll ws ++ extra) := by
  obtain ⟨l1, l2, h1, h2⟩ := set_split ws i wk h
  rw [h2 wk1, h1]
  simp only [receivedAll, List.map_append, List.map_cons, List.flatten_append,
    List.flatten_cons, hr, List.append_assoc]
  refine List.Perm.append_left _ (List.Perm.append_left _ ?_)
  exact List.perm_append_comm

theorem map_call_set (ws : List Worker) (i : Nat) (wk wk1 : Worker)
    (h : ws[i]? = some wk) (hc : wk1.call = wk.call) :
    (ws.set i wk1).map Worker.call = ws.map Worker.call := by
  obtain ⟨l1, l2, h1, h2⟩ := set_split ws i wk h
  rw [h2 wk1, h1]
  simp [hc]

theorem weight_set (ws : List Worker) (i : Nat) (wk wk1 : Worker)
    (h : ws[i]? = some wk) :
    ((ws.set i wk1).map Worker.weight).sum + wk.weight
      = (ws.map Worker.weight).sum + wk1.weight := by
  obtain ⟨l1, l2, h1, h2⟩ := set_split ws i wk h
  rw [h2 wk1, h1]
  simp only [List.map_append, List.map_cons, List.sum_append, List.sum_cons]
  omega

theorem mem_of_getElem? (ws : List Worker) (i : Nat) (wk : Worker) (h : ws[i]? = some wk) :
    wk ∈ ws := by
  obtain ⟨l1, l2, h1, _⟩ := set_split ws i wk h
  rw [h1]
  simp

theorem streamLoop_eq_send {rest : List String} {x : String} {ops : List ChanOp}
    (h : ChanOp.send x :: ops = streamLoop rest) :
    ∃ r, rest = x :: r ∧ ops = streamLoop r := by
  cases rest with
  | nil => simp [streamLoop] at h
  | cons y r =>
    simp [streamLoop] at h
    exact ⟨r, by rw [h.1], h.2⟩

theorem streamLoop_eq_close {rest : List String} {ops : List ChanOp}
    (h : ChanOp.close :: ops = streamLoop rest) : rest = [] ∧ ops = [] := by
  cases rest with
  | nil =>
    simp [streamLoop] at h
    exact ⟨rfl, h⟩
  | cons y r => simp [streamLoop] at h

theorem workerOK_receive {closed : Bool} {wk : Worker} {x : String}
    (h : WorkerOK closed wk) (hr : wk.phase = .ready) : WorkerOK closed (wk.receive x) := by
  obtain ⟨h1, _, h3, h4⟩ := h
  refine ⟨?_, ?_, h3, h4⟩
  · simp [Worker.receive, Phase.held, h1, hr]
  · simp [Worker.receive]

theorem workerOK_handle {closed : Bool} {wk : Worker} {x : String}
    (h : WorkerOK closed wk) (hr : wk.phase = .holding x) : WorkerOK closed (wk.handle x) := by
  obtain ⟨h1, _, h3, h4⟩ := h
  simp only [hr, Phase.held] at h1
  unfold Worker.handle
  cases hc : wk.call with
  | submit b =>
    simp only
    split
    · refine ⟨?_, ?_, ?_, ?_⟩
      · simp [Phase.held, h1]
      · simp
      · intro b1 hb1
        simp at hb1
        rcases hb1 with hb1 | hb1
        · exact h3 b1 hb1
        · subst hb1; simp
      · simp [hc, Call.handler]
    · refine ⟨?_, ?_, h3, ?_⟩
      · simp [Phase.held, h1]
      · simp
      · simp [hc, Call.handler]
  | _ =>
    have h5 := h4 (by simp [hc, Call.handler])
    refine ⟨?_, ?_, ?_, ?_⟩
    · simp [Phase.held, h1, h5.1]
    · simp
    · intro b1 hb1
      simp at hb1
      rcases hb1 with hb1 | hb1
      · exact h3 b1 hb1
      · subst hb1; simp
    · intro _
      refine ⟨h5.1, ?_⟩
      intro b1 hb1
      simp at hb1
      rcases hb1 with hb1 | hb1
      · exact h5.2 b1 hb1
      · subst hb1; simp

theorem workerOK_leave {wk : Worker} (h : WorkerOK true wk) (hr : wk.phase = .ready) :
    WorkerOK true wk.leave := by
  obtain ⟨h1, _, h3, h4⟩ := h
  simp only [hr, Phase.held, List.append_nil] at h1
  unfold Worker.leave
  cases hc : wk.call with
  | submit b =>
    simp only
    split
    · rename_i hb
      refine ⟨?_, ?_, h3, ?_⟩
      · simp [Phase.held, h1]
      · simp [hb]
      · simp [hc, Call.handler]
    · rename_i hb
      refine ⟨?_, ?_, ?_, ?_⟩
      · simp [Phase.held, h1]
      · simp
      · intro b1 hb1
        simp at hb1
        rcases hb1 with hb1 | hb1
        · exact h3 b1 hb1
        · subst hb1; exact hb
      · simp [hc, Call.handler]
  | _ =>
    have h5 := h4 (by simp [hc, Call.handler])
    refine ⟨?_, ?_, h3, ?_⟩
    · simp [Phase.held, h1]
    · simp [h5.1]
    · intro _
      exact h5

theorem workerOK_mono {closed : Bool} {wk : Worker} (h : WorkerOK closed wk) :
    WorkerOK true wk := by
  obtain ⟨h1, h2, h3, h4⟩ := h
  exact ⟨h1, fun hf => ⟨rfl, (h2 hf).2⟩, h3, h4⟩

theorem inv_stepDeliver {lines : List String} {s s1 : Sys} {st : Stage} {i : Nat}
    (h : Inv lines s st) (hs : stepDeliver s i = some s1) : Inv lines s1 st := by
  unfold stepDeliver at hs
  split at hs
  · rename_i x ops wk hstr hwk
    split at hs
    · rename_i hcond
      obtain ⟨hph, hcl⟩ := hcond
      simp only [Option.some.injEq] at hs
      subst hs
      have hmem := mem_of_getElem? _ _ _ hwk
      have hnf : wk.isFinished = false := by simp [Worker.isFinished, hph]
      have hst : st ≠ .idle := fun hi => by
        have := h.idle.mp hi
        simp [hstr] at this
      have hso := h.stream
      simp only [StreamOK, hstr] at hso
      exact {
        prog := h.prog
        fin := h.fin
        idle := by simp [hst]
        idleWorkers := fun hi => absurd hi hst
        waited := h.waited
        count := by
          have h1 := h.count
          have h2 := finishedCount_set s.workers i wk (wk.receive x) hwk
          have hf1 : (wk.receive x).isFinished = false := rfl
          rw [hnf, hf1] at h2
          simp only [Bool.false_eq_true, if_false, Nat.add_zero] at h2
          simp only [List.length_set, h2]
          exact h1
        allFinished := by
          intro hw wk1 _
          have := h.allFinished hw wk hmem
          simp [hph] at this
        stdin := h.stdin
        stream := by
          simp only [StreamOK]
          rcases hso with ⟨rest, h1, h2, h3, h4⟩ | ⟨h1, _⟩
          · obtain ⟨r, hr1, hr2⟩ := streamLoop_eq_send h1
            left
            exact ⟨r, hr2, by rw [← h2, hr1]; simp, h3, h4⟩
          · simp at h1
        workers := by
          intro wk1 hwk1
          rcases List.mem_or_eq_of_mem_set hwk1 with hm | hm
          · exact h.workers wk1 hm
          · subst hm
            exact workerOK_receive (h.workers wk hmem) hph
        perm := by
          have h1 := receivedAll_set s.workers i wk (wk.receive x) [x] hwk rfl
          exact h1.trans (List.Perm.append_right _ h.perm)
        calls := by
          have := map_call_set s.workers i wk (wk.receive x) hwk rfl
          simp only [this]
          exact h.calls
        batch := by
          intro wk1 hwk1
          rcases List.mem_or_eq_of_mem_set hwk1 with hm | hm
          · exact h.batch wk1 hm
          · subst hm
            exact batchOK_receive (h.batch wk hmem) hph }
    · simp at hs
  · simp at hs

theorem inv_stepClose {lines : List String} {s s1 : Sys} {st : Stage}
    (h : Inv lines s st) (hs : stepClose s = some s1) : Inv lines s1 st := by
  unfold stepClose at hs
  split at hs
  · rename_i ops hstr
    simp only [Option.some.injEq] at hs
    subst hs
    have hst : st ≠ .idle := fun hi => by
      have := h.idle.mp hi
      simp [hstr] at this
    have hso := h.stream
    simp only [StreamOK, hstr] at hso
    exact {
      prog := h.prog
      fin := h.fin
      idle := by simp [hst]
      idleWorkers := fun hi => absurd hi hst
      waited := h.waited
      count := h.count
      allFinished := h.allFinished
      stdin := h.stdin
      stream := by
        simp only [StreamOK]
        rcases hso with ⟨rest, h1, h2, _, h4⟩ | ⟨h1, _⟩
        · obtain ⟨hr1, hr2⟩ := streamLoop_eq_close h1
          right
          subst hr1
          refine ⟨hr2, by simpa using h2, ?_, ?_⟩
          · simp
          · simp [h4]
        · simp at h1
      workers := fun wk hwk => workerOK_mono (h.workers wk hwk)
      perm := h.perm
      calls := h.calls
      batch := h.batch }
  · simp at hs

theorem inv_stepWorker {lines : List String} {s s1 : Sys} {st : Stage} {i : Nat}
    (h : Inv lines s st) (hs : stepWorker s i = some s1) : Inv lines s1 st := by
  unfold stepWorker at hs
  split at hs
  · simp at hs
  · rename_i wk hwk
    have hmem := mem_of_getElem? _ _ _ hwk
    have hst : st ≠ .idle := fun hi => by
      have := h.idleWorkers hi
      rw [this] at hmem
      simp at hmem
    split at hs
    · rename_i x hph
      simp only [Option.some.injEq] at hs
      subst hs
      have hnf : wk.isFinished = false := by simp [Worker.isFinished, hph]
      have hok := workerOK_handle (h.workers wk hmem) hph
      have hph1 : (wk.handle x).phase = .ready := by
        unfold Worker.handle
        cases wk.call <;> first | rfl | (simp only []; split <;> rfl)
      have hrec : (wk.handle x).received = wk.received := by
        unfold Worker.handle
        cases wk.call <;> first | rfl | (simp only []; split <;> rfl)
      have hcall : (wk.handle x).call = wk.call := by
        unfold Worker.handle
        cases wk.call <;> first | rfl | (simp only []; split <;> rfl)
      exact {
        prog := h.prog
        fin := h.fin
        idle := h.idle
        idleWorkers := fun hi => absurd hi hst
        waited := h.waited
        count := by
          have h1 := h.count
          have h2 := finishedCount_set s.workers i wk (wk.handle x) hwk
          have hf1 : (wk.handle x).isFinished = false := by simp [Worker.isFinished, hph1]
          rw [hnf, hf1] at h2
          simp only [Bool.false_eq_true, if_false, Nat.add_zero] at h2
          simp only [List.length_set, h2]
          exact h1
        allFinished := by
          intro hw wk1 _
          have := h.allFinished hw wk hmem
          simp [hph] at this
        stdin := h.stdin
        stream := h.stream
        workers := by
          intro wk1 hwk1
          rcases List.mem_or_eq_of_mem_set hwk1 with hm | hm
          · exact h.workers wk1 hm
          · subst hm
            exact hok
        perm := by
          have h1 := receivedAll_set s.workers i wk (wk.handle x) [] hwk (by simp [hrec])
          simp only [List.append_nil] at h1
          exact h1.trans h.perm
        calls := by
          have := map_call_set s.workers i wk (wk.handle x) hwk hcall
          simp only [this]
          exact h.calls
        batch := by
          intro wk1 hwk1
          rcases List.mem_or_eq_of_mem_set hwk1 with hm | hm
          · exact h.batch wk1 hm
          · subst hm
            exact batchOK_handle (h.batch wk hmem) hph }
    · rename_i hph
      split at hs
      · rename_i hcl
        simp only [Option.some.injEq] at hs
        subst hs
        have hnf : wk.isFinished = false := by simp [Worker.isFinished, hph]
        have hok0 := h.workers wk hmem
        rw [hcl] at hok0
        have hok := workerOK_leave hok0 hph
        have hph1 : wk.leave.phase = .finished := by
          unfold Worker.leave
          cases wk.call <;> first | rfl | (simp only []; split <;> rfl)
        have hrec : wk.leave.received = wk.received := by
          unfold Worker.leave
          cases wk.call <;> first | rfl | (simp only []; split <;> rfl)
        have hcall : wk.leave.call = wk.call := by
          unfold Worker.leave
          cases wk.call <;> first | rfl | (simp only []; split <;> rfl)
        exact {
          prog := h.prog
          fin := h.fin
          idle := h.idle
          idleWorkers := fun hi => absurd hi hst
          waited := h.waited
          count := by
            have h1 := h.count
            have h2 := finishedCount_set s.workers i wk wk.leave hwk
            have hf1 : wk.leave.isFinished = true := by simp [Worker.isFinished, hph1]
            rw [hnf, hf1] at h2
            simp only [Bool.false_eq_true, if_false, if_true, Nat.add_zero] at h2
            simp only [List.length_set, h2]
            push_cast
            linarith
          allFinished := by
            intro hw wk1 hwk1
            rcases List.mem_or_eq_of_mem_set hwk1 with hm | hm
            · exact h.allFinished hw wk1 hm
            · subst hm
              exact hph1
          stdin := h.stdin
          stream := h.stream
          workers := by
            intro wk1 hwk1
            rcases List.mem_or_eq_of_mem_set hwk1 with hm | hm
            · exact h.workers wk1 hm
            · subst hm
              rw [hcl]
              exact hok
          perm := by
            have h1 := receivedAll_set s.workers i wk wk.leave [] hwk (by simp [hrec])
            simp only [List.append_nil] at h1
            exact h1.trans h.perm
          calls := by
            have := map_call_set s.workers i wk wk.leave hwk hcall
            simp only [this]
            exact h.calls
          batch := by
            intro wk1 hwk1
            rcases List.mem_or_eq_of_mem_set hwk1 with hm | hm
            · exact h.batch wk1 hm
            · subst hm
              exact batchOK_leave (h.batch wk hmem) hph }
      · simp at hs
    · simp at hs

theorem inv_step {lines : List String} {s s1 : Sys} {st : Stage} {l : Label}
    (h : Inv lines s st) (hs : step s l = some s1) : ∃ st1, Inv lines s1 st1 := by
  unfold step at hs
  split at hs
  · simp at hs
  · rename_i hex
    have hex1 : s.exited = none := by
      cases he : s.exited <;> simp_all
    cases l with
    | main => exact inv_stepMain h hex1 hs
    | deliver i => exact ⟨st, inv_stepDeliver h hs⟩
    | close => exact ⟨st, inv_stepClose h hs⟩
    | worker i => exact ⟨st, inv_stepWorker h hs⟩

theorem inv_run {lines : List String} (sched : List Label) :
    ∀ (s s1 : Sys) (st : Stage), Inv lines s st → run s sched = some s1 →
      ∃ st1, Inv lines s1 st1 := by
  induction sched with
  | nil =>
    intro s s1 st h hr
    simp [run] at hr
    subst hr
    exact ⟨st, h⟩
  | cons l ls ih =>
    intro s s1 st h hr
    simp only [run] at hr
    split at hr
    · simp at hr
    · rename_i s2 hs
      obtain ⟨st2, h2⟩ := inv_step h hs
      exact ih s2 s1 st2 h2 hr

theorem shape_spawnLoop (c : Call) (k : Nat) :
    shape .running (spawnLoop c k ++ [.wgWait, .fClose, .ret]) = true := by
  induction k with
  | zero => simp [spawnLoop, shape]
  | succ k ih => simp [spawnLoop, shape, ih]

theorem shape_dispatch (cmd : String) (n b : Int) (lt q : String) :
    shape .running (dispatch cmd n b lt q [.fClose, .ret]) = true := by
  by_cases hp : cmd ∈ poolCommands
  · obtain ⟨c, hc⟩ := poolCall_of_mem cmd b lt hp
    rw [dispatch_pool _ _ _ _ _ _ c hc, pool, List.append_assoc]
    exact shape_spawnLoop c _
  · by_cases hd : cmd ∈ ["dsl", "ping", "usage", "banner"]
    · simp only [List.mem_cons, List.mem_singleton, List.not_mem_nil, or_false] at hd
      rcases hd with h | h | h | h <;> subst h <;> simp [dispatch, shape, banner]
    · rw [dispatch_default _ _ _ _ _ _ hp hd]
      simp [help, shape]

theorem shape_main (w : World) : shape .idle (main w).trace = true := by
  unfold main
  split
  · simp [shape]
  · split
    · split
      · simp [shape]
      · simp only
        split
        · simp [shape]
        · split
          · simp [shape]
          · simp [shape, shape_dispatch]
    · simp [help, shape]

theorem inv_init (w : World) : Inv w.Stdin.tokens (init w) .idle where
  prog := fun _ => shape_main w
  fin := fun hne => absurd rfl hne
  idle := by simp [init]
  idleWorkers := fun _ => rfl
  waited := by simp [init]
  count := by simp [init, finishedCount]
  allFinished := by simp
  stdin := rfl
  stream := by simp [StreamOK, init]
  workers := by simp [init]
  perm := by simp [init, receivedAll]
  calls := by simp [init, goCalls]
  batch := by simp [init]

theorem inv_reach (w : World) (sched : List Label) (s : Sys)
    (hr : run (init w) sched = some s) : ∃ st, Inv w.Stdin.tokens s st :=
  inv_run sched (init w) s .idle (inv_init w) hr

theorem done_main_step {s s1 : Sys} {l : Label} (hs : step s l = some s1) :
    s1.done ++ s1.main = s.done ++ s.main := by
  unfold step at hs
  split at hs
  · simp at hs
  · cases l with
    | main =>
      simp only at hs
      unfold stepMain at hs
      split at hs
      · simp at hs
      · rename_i a rest hm
        cases a with
        | wgWait =>
          simp at hs
          obtain ⟨_, hs⟩ := hs
          subst hs
          simp [hm]
        | _ =>
          simp at hs
          subst hs
          simp [hm]
    | deliver i =>
      simp only [stepDeliver] at hs
      split at hs
      · split at hs
        · simp only [Option.some.injEq] at hs
          subst hs
          rfl
        · simp at hs
      · simp at hs
    | close =>
      simp only [stepClose] at hs
      split at hs
      · simp only [Option.some.injEq] at hs
        subst hs
        rfl
      · simp at hs
    | worker i =>
      simp only [stepWorker] at hs
      split at hs
      · simp at hs
      · split at hs
        · simp only [Option.some.injEq] at hs
          subst hs
          rfl
        · split at hs
          · simp only [Option.some.injEq] at hs
            subst hs
            rfl
          · simp at hs
        · simp at hs

theorem done_main_run (sched : List Label) :
    ∀ (s s1 : Sys), run s sched = some s1 → s1.done ++ s1.main = s.done ++ s.main := by
  induction sched with
  | nil =>
    intro s s1 hr
    simp [run] at hr
    subst hr
    rfl
  | cons l ls ih =>
    intro s s1 hr
    simp only [run] at hr
    split at hr
    · simp at hr
    · rename_i s2 hs
      rw [ih s2 s1 hr, done_main_step hs]

/-! ## Runs of the process: termination -/

theorem length_streamLoop (ts : List String) : (streamLoop ts).length = ts.length + 1 := by
  induction ts with
  | nil => rfl
  | cons t ts ih => simp [streamLoop, ih]

theorem workLeft_stepMain {lines : List String} {s s1 : Sys} {st : Stage}
    (h : Inv lines s st) (hex : s.exited = none) (hs : stepMain s = some s1) :
    workLeft s1 < workLeft s := by
  cases hm : s.main with
  | nil => simp [stepMain, hm] at hs
  | cons a rest =>
    have hsh := h.prog hex
    rw [hm] at hsh
    cases a with
    | goStreamer =>
      simp [stepMain, hm] at hs
      subst hs
      simp [shape] at hsh
      have hnone : s.stream = none := h.idle.mp hsh.1
      simp [workLeft, hm, hnone, streamer, length_streamLoop]
    | go c =>
      simp [stepMain, hm] at hs
      subst hs
      simp [workLeft, hm, Worker.spawn, Worker.weight]
      omega
    | wgWait =>
      simp [stepMain, hm] at hs
      obtain ⟨_, hs⟩ := hs
      subst hs
      simp [workLeft, hm]
    | _ =>
      simp [stepMain, hm] at hs
      subst hs
      simp [workLeft, hm]

theorem workLeft_step {lines : List String} {s s1 : Sys} {st : Stage} {l : Label}
    (h : Inv lines s st) (hs : step s l = some s1) : workLeft s1 < workLeft s := by
  unfold step at hs
  split at hs
  · simp at hs
  · rename_i hex
    have hex1 : s.exited = none := by
      cases he : s.exited <;> simp_all
    cases l with
    | main => exact workLeft_stepMain h hex1 hs
    | deliver i =>
      simp only [stepDeliver] at hs
      split at hs
      · rename_i x ops wk hstr hwk
        split at hs
        · rename_i hcond
          simp only [Option.some.injEq] at hs
          subst hs
          have hw := weight_set s.workers i wk (wk.receive x) hwk
          have h1 : wk.weight = 1 := by simp [Worker.weight, hcond.1]
          have h2 : (wk.receive x).weight = 2 := rfl
          simp only [workLeft, hstr, List.length_cons]
          omega
        · simp at hs
      · simp at hs
    | close =>
      simp only [stepClose] at hs
      split at hs
      · rename_i ops hstr
        simp only [Option.some.injEq] at hs
        subst hs
        simp only [workLeft, hstr, List.length_cons]
        omega
      · simp at hs
    | worker i =>
      simp only [stepWorker] at hs
      split at hs
      · simp at hs
      · rename_i wk hwk
        split at hs
        · rename_i x hph
          simp only [Option.some.injEq] at hs
          subst hs
          have hw := weight_set s.workers i wk (wk.handle x) hwk
          have h1 : wk.weight = 2 := by simp [Worker.weight, hph]
          have h2 : (wk.handle x).weight = 1 := by
            unfold Worker.handle
            cases wk.call <;> first | rfl | (simp only []; split <;> rfl)
          simp only [workLeft]
          omega
        · rename_i hph
          split at hs
          · simp only [Option.some.injEq] at hs
            subst hs
            have hw := weight_set s.workers i wk wk.leave hwk
            have h1 : wk.weight = 1 := by simp [Worker.weight, hph]
            have h2 : wk.leave.weight = 0 := by
              unfold Worker.leave
              cases wk.call <;> first | rfl | (simp only []; split <;> rfl)
            simp only [workLeft]
            omega
          · simp at hs
        · simp at hs

theorem exists_unfinished (ws : List Worker) (h : finishedCount ws < ws.length) :
    ∃ (i : Nat) (wk : Worker), ws[i]? = some wk ∧ wk.phase ≠ .finished := by
  induction ws with
  | nil => simp at h
  | cons w ws ih =>
    by_cases hw : w.phase = .finished
    · have hf : w.isFinished = true := by simp [Worker.isFinished, hw]
      simp only [finishedCount, List.countP_cons, hf, if_true, List.length_cons] at h
      have h1 : finishedCount ws < ws.length := by
        simp only [finishedCount]
        omega
      obtain ⟨i, wk, h2, h3⟩ := ih h1
      exact ⟨i + 1, wk, by simpa using h2, h3⟩
    · exact ⟨0, w, by simp, hw⟩

theorem progress {lines : List String} {s : Sys} {st : Stage}
    (h : Inv lines s st) (hex : s.exited = none) : ∃ l s1, step s l = some s1 := by
  have hsh := h.prog hex
  have hif : s.exited.isSome = false := by simp [hex]
  cases hm : s.main with
  | nil => simp [hm, shape] at hsh
  | cons a rest =>
    rw [hm] at hsh
    by_cases hw : a = .wgWait
    · subst hw
      simp [shape] at hsh
      obtain ⟨hst, _⟩ := hsh
      subst hst
      by_cases hc : s.counter = 0
      · exact ⟨.main, _, by simp [step, hif, stepMain, hm, hc]; rfl⟩
      · have hcnt := h.count
        simp at hcnt
        have hle := finishedCount_le s.workers
        have hlt : finishedCount s.workers < s.workers.length := by omega
        obtain ⟨i, wk, hwk, hph⟩ := exists_unfinished s.workers hlt
        cases hp : wk.phase with
        | finished => exact absurd hp hph
        | holding x =>
          exact ⟨.worker i, _, by simp [step, hif, stepWorker, hwk, hp]; rfl⟩
        | ready =>
          by_cases hcl : s.closed = true
          · exact ⟨.worker i, _, by simp [step, hif, stepWorker, hwk, hp, hcl]; rfl⟩
          · have hso := h.stream
            have hne : s.stream ≠ none := fun hn => by
              have := h.idle.mpr hn
              simp at this
            cases hstr : s.stream with
            | none => exact absurd hstr hne
            | some ops =>
              simp only [StreamOK, hstr] at hso
              rcases hso with ⟨r, h1, _, _, _⟩ | ⟨_, _, h3, _⟩
              · cases r with
                | nil =>
                  simp only [streamLoop] at h1
                  subst h1
                  exact ⟨.close, _, by simp [step, hif, stepClose, hstr]; rfl⟩
                | cons x r =>
                  simp only [streamLoop] at h1
                  subst h1
                  have hcl1 : s.closed = false := by simpa using hcl
                  exact ⟨.deliver i, _, by simp [step, hif, stepDeliver, hstr, hwk, hp, hcl1]; rfl⟩
              · exact absurd h3 hcl
    · refine ⟨.main, ?_⟩
      cases a <;> simp [step, hif, stepMain, hm] at hw ⊢

theorem can_finish {lines : List String} (n : Nat) :
    ∀ (s : Sys) (st : Stage), workLeft s ≤ n → Inv lines s st →
      ∃ sched s1, run s sched = some s1 ∧ s1.exited ≠ none := by
  induction n with
  | zero =>
    intro s st hn h
    cases hex : s.exited with
    | some c => exact ⟨[], s, rfl, by simp [hex]⟩
    | none =>
      obtain ⟨l, s1, hs⟩ := progress h hex
      have := workLeft_step h hs
      omega
  | succ n ih =>
    intro s st hn h
    cases hex : s.exited with
    | some c => exact ⟨[], s, rfl, by simp [hex]⟩
    | none =>
      obtain ⟨l, s1, hs⟩ := progress h hex
      have hlt := workLeft_step h hs
      obtain ⟨st1, h1⟩ := inv_step h hs
      obtain ⟨sched, s2, hr, he⟩ := ih s1 st1 (by omega) h1
      exact ⟨l :: sched, s2, by simp [run, hs, hr], he⟩

theorem run_length_le {lines : List String} (sched : List Label) :
    ∀ (s s1 : Sys) (st : Stage), Inv lines s st → run s sched = some s1 →
      sched.length + workLeft s1 ≤ workLeft s := by
  induction sched with
  | nil =>
    intro s s1 st _ hr
    simp [run] at hr
    subst hr
    simp
  | cons l ls ih =>
    intro s s1 st h hr
    simp only [run] at hr
    split at hr
    · simp at hr
    · rename_i s2 hs
      obtain ⟨st2, h2⟩ := inv_step h hs
      have h3 := ih s2 s1 st2 h2 hr
      have h4 := workLeft_step h hs
      simp only [List.length_cons]
      omega

/-! ## The pool -/

theorem goCalls_of_waited (l : List Act) (h : shape .waited l = true) : goCalls l = [] := by
  induction l with
  | nil => rfl
  | cons a l ih =>
    cases a <;> simp [shape] at h <;> simp [goCalls] <;> first | exact ih h | (rw [h]; rfl)

theorem flatten_invoked (ws : List Worker)
    (h : ∀ wk ∈ ws, wk.received = wk.invoked.flatten) :
    (invokedAll ws).flatten = receivedAll ws := by
  induction ws with
  | nil => rfl
  | cons w ws ih =>
    have h1 := h w (by simp)
    have h2 := ih (fun wk hwk => h wk (by simp [hwk]))
    simp only [invokedAll, receivedAll] at h2 ⊢
    simp [h1, h2]

theorem length_flatten_of_singletons (bs : List (List String))
    (h : ∀ b ∈ bs, b.length = 1) : bs.flatten.length = bs.length := by
  induction bs with
  | nil => rfl
  | cons b bs ih =>
    have h1 := h b (by simp)
    have h2 := ih (fun b1 hb1 => h b1 (by simp [hb1]))
    simp [h1, h2]
    omega

/-- What the invariant gives for a pool-driven command: the facts about a reachable
state `s` on which the statements about the pool rest. -/
theorem pool_facts (w : World) (cmd : String) (fl : FlagValues) (doc : YamlDoc) (c : Call)
    (hl : Loaded w cmd fl doc)
    (hc : poolCall cmd (fl.b.getD 100) (fl.type.getD "a") = some c)
    (sched : List Label) (s : Sys) (hr : run (init w) sched = some s) :
    ∃ st, Inv w.Stdin.tokens s st ∧
      (∀ wk ∈ s.workers, wk.call = c) ∧
      (s.exited ≠ none → Act.wgWait ∈ s.done) ∧
      ((st = .waited ∨ ∃ rest, s.main = .wgWait :: rest) →
        s.workers.length = (concurrency fl).toNat) := by
  obtain ⟨st, h⟩ := inv_reach w sched s hr
  obtain ⟨path, htr⟩ := pool_trace w cmd fl doc c hl hc
  have hdm := done_main_run sched (init w) s hr
  simp only [init, List.nil_append] at hdm
  have hgo : goCalls s.done ++ goCalls s.main = List.replicate (concurrency fl).toNat c := by
    rw [← goCalls_append, hdm, htr, goCalls_append, goCalls_append, goCalls_spawnLoop]
    simp [setup, goCalls]
  have hcalls := h.calls
  refine ⟨st, h, ?_, ?_, ?_⟩
  · intro wk hwk
    have h1 : wk.call ∈ goCalls s.done := by
      rw [← hcalls]
      exact List.mem_map_of_mem _ hwk
    have h2 : wk.call ∈ List.replicate (concurrency fl).toNat c := by
      rw [← hgo]
      exact List.mem_append_left _ h1
    exact List.eq_of_mem_replicate h2
  · intro hex
    have hm := h.fin hex
    rw [hm, List.append_nil] at hdm
    rw [hdm, htr]
    simp
  · intro hcase
    have hnil : goCalls s.main = [] := by
      rcases hcase with hw | ⟨rest, hm⟩
      · cases hex : s.exited with
        | none =>
          have := h.prog hex
          rw [hw] at this
          exact goCalls_of_waited _ this
        | some code =>
          have := h.fin (by simp [hex])
          rw [this]
          rfl
      · have hex : s.exited = none := by
          cases hex : s.exited with
          | none => rfl
          | some code =>
            have := h.fin (by simp [hex])
            rw [this] at hm
            simp at hm
        have hp := h.prog hex
        rw [hm] at hp
        simp [shape] at hp
        rw [hm]
        simp [goCalls, goCalls_of_waited _ hp.2]
    rw [hnil, List.append_nil] at hgo
    have := congrArg List.length hcalls
    simp [hgo] at this
    exact this

/-- C9: for a pool-driven command and `N ≥ 1` workers, in every run: when `wg.Wait()` is
the next statement of `main`, all `N` workers are started and the counter stands at `N`
less the completions signalled so far; once `wg.Wait()` has returned, each of the `N`
workers has signalled completion and returned; and the process has not exited before
that, so no worker holds an item when it exits. Every run can be continued to the exit. -/
theorem C9_wait_returns_after_all_workers (w : World) (cmd : String) (fl : FlagValues)
    (doc : YamlDoc) (N : Nat) (hl : Loaded w cmd fl doc) (hcmd : cmd ∈ poolCommands)
    (hN : 1 ≤ N) (ht : concurrency fl = (N : Int)) :
    ∀ sched s, run (init w) sched = some s →
      (∀ rest, s.main = .wgWait :: rest →
        s.workers.length = N ∧ s.counter = (N : Int) - (finishedCount s.workers : Int)) ∧
      (Act.wgWait ∈ s.done →
        s.workers.length = N ∧ s.counter = 0 ∧ ∀ wk ∈ s.workers, wk.phase = .finished) ∧
      (s.exited ≠ none →
        Act.wgWait ∈ s.done ∧ ∀ wk ∈ s.workers, wk.isHolding = false) ∧
      (∃ sched1 s1, run s sched1 = some s1 ∧ s1.exited ≠ none) := by
  intro sched s hr
  have hN1 := hN
  obtain ⟨c, hc⟩ := poolCall_of_mem cmd (fl.b.getD 100) (fl.type.getD "a") hcmd
  obtain ⟨st, h, _, hex, hlen⟩ := pool_facts w cmd fl doc c hl hc sched s hr
  have hn : (concurrency fl).toNat = N := by simp [ht]
  rw [hn] at hlen
  have hwaited : Act.wgWait ∈ s.done →
      s.workers.length = N ∧ s.counter = 0 ∧ ∀ wk ∈ s.workers, wk.phase = .finished := by
    intro hd
    have hst := h.waited.mpr hd
    have hall := h.allFinished hst
    have hl1 := hlen (Or.inl hst)
    refine ⟨hl1, ?_, hall⟩
    have hcnt := h.count
    have hfc : finishedCount s.workers = s.workers.length := by
      apply List.countP_eq_length.mpr
      intro wk hwk
      simp [Worker.isFinished, hall wk hwk]
    rw [hfc, hst] at hcnt
    simpa using hcnt
  refine ⟨?_, hwaited, ?_, ?_⟩
  · intro rest hm
    have hl1 := hlen (Or.inr ⟨rest, hm⟩)
    refine ⟨hl1, ?_⟩
    have hexn : s.exited = none := by
      cases hex1 : s.exited with
      | none => rfl
      | some code =>
        have := h.fin (by simp [hex1])
        rw [this] at hm
        simp at hm
    have hp := h.prog hexn
    rw [hm] at hp
    simp [shape] at hp
    have hcnt := h.count
    rw [hp.1, hl1] at hcnt
    simp at hcnt
    omega
  · intro hne
    have hd := hex hne
    refine ⟨hd, ?_⟩
    intro wk hwk
    simp [Worker.isHolding, (hwaited hd).2.2 wk hwk]
  · exact can_finish (workLeft s) s st (le_refl _) h

theorem C9_wait_returns_after_all_workers_witness :
    ∃ s, run (init (worldTwo "tags")) schedTwo = some s ∧
      (∀ rest, s.main = .wgWait :: rest →
        s.workers.length = 2 ∧
        s.counter = ((2 : Nat) : Int) - (finishedCount s.workers : Int)) ∧
      (Act.wgWait ∈ s.done →
        s.workers.length = 2 ∧ s.counter = 0 ∧ ∀ wk ∈ s.workers, wk.phase = .finished) ∧
      (s.exited ≠ none →
        Act.wgWait ∈ s.done ∧ ∀ wk ∈ s.workers, wk.isHolding = false) ∧
      (∃ sched1 s1, run s sched1 = some s1 ∧ s1.exited ≠ none) := by
  have hsome : (run (init (worldTwo "tags")) schedTwo).isSome = true := by decide
  obtain ⟨s, hs⟩ := Option.isSome_iff_exists.mp hsome
  exact ⟨s, hs, C9_wait_returns_after_all_workers (worldTwo "tags") "tags" (flagT 2)
    ⟨some "k", []⟩ 2 (sampleWorld_loaded _ _ _) (by decide) (by decide) rfl schedTwo s hs⟩

/-- C10: single delivery. For a pool-driven command, `N ≥ 1` workers and input lines
`M` in number, in every run the items received by the workers, each counted for the one
worker that received it, are the items handed over on the channel, and these are the
first so many input lines; every run can be continued to the exit. When the process has
exited, the `N` workers have received all `M` input lines between them, each line passed
to exactly one handler invocation, none twice and none dropped, and no invocation is
empty; for the nine per-item commands that makes exactly `M` handler invocations, and for
`submit` with batch size `b ≥ 1` each worker has made as many invocations as its share
of the items divided by `b`, rounded up, none with more than `b` items. -/
theorem C10_single_delivery (w : World) (cmd : String) (fl : FlagValues) (doc : YamlDoc)
    (N : Nat) (hl : Loaded w cmd fl doc) (hcmd : cmd ∈ poolCommands) (hN : 1 ≤ N)
    (ht : concurrency fl = (N : Int)) :
    ∀ sched s, run (init w) sched = some s →
      (receivedAll s.workers).Perm s.sent ∧
      (∃ rest, s.sent ++ rest = w.Stdin.tokens) ∧
      (∃ sched1 s1, run s sched1 = some s1 ∧ s1.exited ≠ none) ∧
      (s.exited ≠ none →
        s.workers.length = N ∧
        s.sent = w.Stdin.tokens ∧
        (receivedAll s.workers).Perm w.Stdin.tokens ∧
        ((invokedAll s.workers).flatten).Perm w.Stdin.tokens ∧
        (∀ b ∈ invokedAll s.workers, b ≠ []) ∧
        (cmd ≠ "submit" → (invokedAll s.workers).length = w.Stdin.tokens.length) ∧
        (cmd = "submit" → ∀ b : Nat, 1 ≤ b → fl.b.getD 100 = (b : Int) →
          ∀ wk ∈ s.workers,
            wk.invoked.length = (wk.received.length + b - 1) / b ∧
            ∀ batch ∈ wk.invoked, batch.length ≤ b)) := by
  intro sched s hr
  obtain ⟨c, hc⟩ := poolCall_of_mem cmd (fl.b.getD 100) (fl.type.getD "a") hcmd
  obtain ⟨st, h, hcall, hex, hlen⟩ := pool_facts w cmd fl doc c hl hc sched s hr
  have hn : (concurrency fl).toNat = N := by simp [ht]
  rw [hn] at hlen
  have hpre : ∃ rest, s.sent ++ rest = w.Stdin.tokens := by
    have hso := h.stream
    unfold StreamOK at hso
    cases hstr : s.stream with
    | none =>
      rw [hstr] at hso
      exact ⟨w.Stdin.tokens, by simp [hso.2.1]⟩
    | some ops =>
      rw [hstr] at hso
      rcases hso with ⟨rest, _, h2, _⟩ | ⟨_, h2, _⟩
      · exact ⟨rest, h2⟩
      · exact ⟨[], by simp [h2]⟩
  refine ⟨h.perm, hpre, can_finish (workLeft s) s st (le_refl _) h, ?_⟩
  intro hne
  have hst := h.waited.mpr (hex hne)
  have hall := h.allFinished hst
  have hl1 := hlen (Or.inl hst)
  have hok := h.workers
  -- some worker has returned, so the channel is closed
  have hclosed : s.closed = true := by
    cases hws : s.workers with
    | nil =>
      rw [hws] at hl1
      simp at hl1
      omega
    | cons wk ws =>
      have hmem : wk ∈ s.workers := by simp [hws]
      exact ((hok wk hmem).2.1 (hall wk hmem)).1
  have hsent : s.sent = w.Stdin.tokens := by
    have hso := h.stream
    unfold StreamOK at hso
    cases hstr : s.stream with
    | none =>
      rw [hstr] at hso
      rw [hso.1] at hclosed
      simp at hclosed
    | some ops =>
      rw [hstr] at hso
      rcases hso with ⟨_, _, _, h3, _⟩ | ⟨_, h2, _⟩
      · rw [h3] at hclosed
        simp at hclosed
      · exact h2
  have hrecv : ∀ wk ∈ s.workers, wk.received = wk.invoked.flatten := by
    intro wk hwk
    obtain ⟨h1, h2, _, _⟩ := hok wk hwk
    have hf := hall wk hwk
    rw [h1, (h2 hf).2, hf]
    simp [Phase.held]
  have hflat := flatten_invoked s.workers hrecv
  have hperm : (receivedAll s.workers).Perm w.Stdin.tokens := by
    rw [← hsent]
    exact h.perm
  refine ⟨hl1, hsent, hperm, by rw [hflat]; exact hperm, ?_, ?_, ?_⟩
  · intro b hb
    simp only [invokedAll, List.mem_flatten, List.mem_map] at hb
    obtain ⟨bs, ⟨wk, hwk, hbs⟩, hb1⟩ := hb
    subst hbs
    exact (hok wk hwk).2.2.1 b hb1
  · intro hns
    have hch : c.handler ≠ .submit := by
      rcases poolCall_cases cmd _ _ c hc with h | h | h | h | h | h | h | h | h | h <;>
        obtain ⟨h1, h2⟩ := h <;> subst h2 <;> simp_all [Call.handler]
    have hone : ∀ b ∈ invokedAll s.workers, b.length = 1 := by
      intro b hb
      simp only [invokedAll, List.mem_flatten, List.mem_map] at hb
      obtain ⟨bs, ⟨wk, hwk, hbs⟩, hb1⟩ := hb
      subst hbs
      have hwc := hcall wk hwk
      exact ((hok wk hwk).2.2.2 (by rw [hwc]; exact hch)).2 b hb1
    rw [← length_flatten_of_singletons _ hone, hflat]
    exact hperm.length_eq
  · intro hsub b hb hfb wk hwk
    have hcs : c = .submit (b : Int) := by
      rcases poolCall_cases cmd _ _ c hc with h | h | h | h | h | h | h | h | h | h <;>
        obtain ⟨h1, h2⟩ := h
      · rw [h2, hfb]
      all_goals (rw [hsub] at h1; simp at h1)
    have hwc : wk.call = .submit (b : Int) := by rw [hcall wk hwk, hcs]
    have hb1 := (h.batch wk hwk b hb hwc).2 (hall wk hwk)
    rw [hrecv wk hwk]
    exact hb1

theorem C10_single_delivery_witness :
    (∃ s, run (init (worldTwo "subdomains")) schedTwo = some s ∧ s.exited = some 0 ∧
      (receivedAll s.workers).Perm ["a.com", "b.com"] ∧
      (invokedAll s.workers).length = 2) ∧
    (∃ s, run (init worldSubmit) schedSubmit = some s ∧ s.exited = some 0 ∧
      (receivedAll s.workers).Perm ["a.com", "b.com", "c.com"] ∧
      ∀ wk ∈ s.workers, wk.invoked.length = (wk.received.length + 2 - 1) / 2) := by
  have h1 : (run (init (worldTwo "subdomains")) schedTwo).map (fun s => s.exited)
      = some (some 0) := by decide
  have h2 : (run (init worldSubmit) schedSubmit).map (fun s => s.exited)
      = some (some 0) := by decide
  constructor
  · cases hr : run (init (worldTwo "subdomains")) schedTwo with
    | none => rw [hr] at h1; simp at h1
    | some s =>
      rw [hr] at h1
      simp only [Option.map_some', Option.some.injEq] at h1
      obtain ⟨_, _, _, hex⟩ := C10_single_delivery (worldTwo "subdomains") "subdomains"
        (flagT 2) ⟨some "k", []⟩ 2 (sampleWorld_loaded _ _ _) (by decide) (by decide) rfl
        schedTwo s hr
      obtain ⟨_, _, hp, _, _, hm, _⟩ := hex (by simp [h1])
      exact ⟨s, rfl, h1, hp, hm (by decide)⟩
  · cases hr : run (init worldSubmit) schedSubmit with
    | none => rw [hr] at h2; simp at h2
    | some s =>
      rw [hr] at h2
      simp only [Option.map_some', Option.some.injEq] at h2
      obtain ⟨_, _, _, hex⟩ := C10_single_delivery worldSubmit "submit"
        ⟨some 1, some 2, none, none, none, none⟩ ⟨some "k", []⟩ 1 (sampleWorld_loaded _ _ _)
        (by decide) (by decide) rfl schedSubmit s hr
      obtain ⟨_, _, hp, _, _, _, hb⟩ := hex (by simp [h2])
      exact ⟨s, rfl, h2, hp, fun wk hwk => (hb rfl 2 (by decide) rfl wk hwk).1⟩

/-- C4, as the claim states it, fails: with `-t 0` and the command `subdomains`, `main`
prints no error, starts no worker, and the process exits with status 0 after the nine
statements of `main`, the input line handed to no one. -/
theorem C4_zero_workers_not_rejected :
    (∀ a ∈ (main worldZero).trace, a.isError = false) ∧
    goCalls (main worldZero).trace = [] ∧
    (run (init worldZero) (mainSteps 9)).map (fun s => (s.exited, s.workers, s.sent))
      = some (some 0, [], []) := by
  decide

/-- C4, amended: a concurrency of 0 is not rejected. With `-t 0` and a pool-driven
command, `main` prints no error and goes from the set-up straight to `wg.Wait()`, which
returns at once; it starts no worker, no run hands an input line to anyone, and the
process exits with status 0 as a normal run. -/
theorem C4_zero_workers_normal_run (w : World) (cmd : String) (fl : FlagValues)
    (doc : YamlDoc) (hl : Loaded w cmd fl doc) (hcmd : cmd ∈ poolCommands)
    (ht : fl.t = some 0) :
    (∃ path, (main w).trace = setup path ++ [.wgWait, .fClose, .ret]) ∧
    (∀ a ∈ (main w).trace, a.isError = false) ∧
    (∃ s, run (init w) (mainSteps 9) = some s ∧ s.exited = some 0) ∧
    (∀ sched s, run (init w) sched = some s → s.workers = [] ∧ s.sent = []) := by
  obtain ⟨c, hc⟩ := poolCall_of_mem cmd (fl.b.getD 100) (fl.type.getD "a") hcmd
  obtain ⟨path, htr⟩ := pool_trace w cmd fl doc c hl hc
  have hz : (concurrency fl).toNat = 0 := by simp [concurrency, ht]
  rw [hz] at htr
  simp only [spawnLoop, List.nil_append] at htr
  refine ⟨⟨path, htr⟩, ?_, ?_, ?_⟩
  · intro a ha
    rw [htr] at ha
    simp only [setup, List.mem_append, List.mem_cons, List.mem_singleton,
      List.not_mem_nil, or_false] at ha
    rcases ha with (h | h | h | h | h | h) | (h | h | h) <;> subst h <;> rfl
  · simp [mainSteps, List.replicate, run, step, stepMain, init, htr, setup]
  · intro sched s hr
    obtain ⟨st, h, _, _, _⟩ := pool_facts w cmd fl doc c hl hc sched s hr
    have hdm := done_main_run sched (init w) s hr
    simp only [init, List.nil_append] at hdm
    have hgo : goCalls s.done ++ goCalls s.main = [] := by
      rw [← goCalls_append, hdm, htr]
      simp [setup, goCalls]
    have hcalls := h.calls
    have hws : s.workers = [] := by
      have h1 : goCalls s.done = [] := (List.append_eq_nil.mp hgo).1
      rw [h1] at hcalls
      simpa using hcalls
    refine ⟨hws, ?_⟩
    have hp := h.perm
    rw [hws] at hp
    simpa [receivedAll] using hp

theorem C4_zero_workers_normal_run_witness :
    (∃ path, (main worldZero).trace = setup path ++ [.wgWait, .fClose, .ret]) ∧
    (∀ a ∈ (main worldZero).trace, a.isError = false) ∧
    (∃ s, run (init worldZero) (mainSteps 9) = some s ∧ s.exited = some 0) ∧
    (∀ sched s, run (init worldZero) sched = some s → s.workers = [] ∧ s.sent = []) :=
  C4_zero_workers_normal_run worldZero "subdomains" (flagT 0) ⟨some "k", []⟩
    (sampleWorld_loaded _ _ _) (by decide) rfl

/-! ## The input streamer -/

theorem streamLoop_eq (ts : List String) :
    streamLoop ts = ts.map ChanOp.send ++ [ChanOp.close] := by
  induction ts with
  | nil => rfl
  | cons t ts ih => simp [streamLoop, ih]

/-- The streamer is the loop the source writes: while `Scan` succeeds it sends `Text`,
then it closes the channel. -/
theorem streamer_scan (sc : Scanner) :
    streamer sc = if sc.Scan.1 = true then .send sc.Scan.2.Text :: streamer sc.Scan.2
      else [.close] := by
  obtain ⟨tokens, err, text⟩ := sc
  cases tokens <;> simp [streamer, streamLoop, Scanner.Scan, Scanner.Text]

/-- C2: whatever lines the scanner yields and however the stream ends (end-of-stream or
read error), the streamer sends exactly those lines, in input order, and then closes the
channel, once and as its last operation. In every run of the process the channel is
closed at most once, the items handed over are the first so many input lines in input
order, and once the channel is closed all lines have been handed over, so nothing is
sent after the close; no other goroutine closes the channel. -/
theorem C2_streamer_sends_in_order_then_closes :
    (∀ sc : Scanner,
      streamer sc = sc.tokens.map ChanOp.send ++ [ChanOp.close] ∧
      sends (streamer sc) = sc.tokens ∧
      (streamer sc).count ChanOp.close = 1 ∧
      afterClose (streamer sc) = []) ∧
    (∀ w sched s, run (init w) sched = some s →
      s.closes ≤ 1 ∧
      (∃ rest, s.sent ++ rest = w.Stdin.tokens) ∧
      (s.closed = true → s.closes = 1 ∧ s.sent = w.Stdin.tokens) ∧
      (s.closed = false → s.closes = 0)) := by
  constructor
  · intro sc
    have h1 : ∀ ts : List String, sends (streamLoop ts) = ts := by
      intro ts
      induction ts with
      | nil => rfl
      | cons t ts ih => simp [streamLoop, sends, ih]
    have h2 : ∀ ts : List String, (streamLoop ts).count ChanOp.close = 1 := by
      intro ts
      induction ts with
      | nil => rfl
      | cons t ts ih => simp [streamLoop, List.count_cons, ih]
    have h3 : ∀ ts : List String, afterClose (streamLoop ts) = [] := by
      intro ts
      induction ts with
      | nil => rfl
      | cons t ts ih => simp [streamLoop, afterClose, ih]
    exact ⟨streamLoop_eq _, h1 _, h2 _, h3 _⟩
  · intro w sched s hr
    obtain ⟨st, h⟩ := inv_reach w sched s hr
    have hso := h.stream
    unfold StreamOK at hso
    cases hstr : s.stream with
    | none =>
      rw [hstr] at hso
      obtain ⟨h1, h2, h3⟩ := hso
      exact ⟨by omega, ⟨w.Stdin.tokens, by simp [h2]⟩, by simp [h1], fun _ => h3⟩
    | some ops =>
      rw [hstr] at hso
      rcases hso with ⟨rest, _, h2, h3, h4⟩ | ⟨_, h2, h3, h4⟩
      · exact ⟨by omega, ⟨rest, h2⟩, by simp [h3], fun _ => h4⟩
      · exact ⟨by omega, ⟨[], by simp [h2]⟩, fun _ => ⟨h4, h2⟩, by simp [h3]⟩

theorem C2_streamer_sends_in_order_then_closes_witness :
    streamer ⟨["a.com", "b.com"], some "read error", ""⟩
      = [.send "a.com", .send "b.com", .close] ∧
    ∃ s, run (init (sampleWorld "subdomains" (flagT 1) ["a.com"]))
        (mainSteps 8 ++ [.deliver 0, .close]) = some s ∧
      (s.closes ≤ 1 ∧
        (∃ rest, s.sent ++ rest
          = (sampleWorld "subdomains" (flagT 1) ["a.com"]).Stdin.tokens) ∧
        (s.closed = true → s.closes = 1 ∧
          s.sent = (sampleWorld "subdomains" (flagT 1) ["a.com"]).Stdin.tokens) ∧
        (s.closed = false → s.closes = 0)) := by
  have hsome : (run (init (sampleWorld "subdomains" (flagT 1) ["a.com"]))
      (mainSteps 8 ++ [.deliver 0, .close])).isSome = true := by decide
  obtain ⟨s, hs⟩ := Option.isSome_iff_exists.mp hsome
  exact ⟨(C2_streamer_sends_in_order_then_closes.1
      ⟨["a.com", "b.com"], some "read error", ""⟩).1,
    s, hs, C2_streamer_sends_in_order_then_closes.2 _ _ s hs⟩

end Haktrails
